import Mathlib

/-!
Verification of the schemalint core analyzer (package `linter`).

The Go source (`src/linter/linter.go`, `src/linter/issue.go`) is shallowly
embedded below.  Go maps (`Properties`, `Defs`, `Definitions`) are represented
as association lists whose list order stands for the (unspecified) iteration
order of a Go `range` loop over the map; Go nil-able `*Schema` pointers are
represented as `Option Schema`; Go `string`-typed enumerations (`Severity`,
`IssueCode`, `Profile`, `PropertyCase`) are represented as `String` with named
constants.  The schema model file (`schema.go`) is not part of the provided
sources; its struct fields are reconstructed from their uses in `linter.go`
and its derived accessors (`HasType`, `HasMixedType`, `IsRef`) are modelled
from the specification, as marked on each such definition.
-/

/-- A JSON constant value stored in a schema `const` slot.  The analyzer only
ever distinguishes string constants from non-string ones (a Go type assertion
`.(string)`), so non-string JSON values are kept opaque, tagged by a number
only so that distinct non-string constants can be told apart in examples. -/
inductive ConstVal where
  | str : String → ConstVal
  | other : Nat → ConstVal
deriving DecidableEq, Repr

/-- Severity string constants from `issue.go`. -/
def SeverityError : String := "error"

def SeverityWarning : String := "warning"

def SeverityInfo : String := "info"

/-- Issue code string constants from `issue.go`. -/
def CodeUnionNoDiscriminator : String := "union-no-discriminator"

def CodeInconsistentDiscriminator : String := "inconsistent-discriminator"

def CodeMissingConst : String := "missing-const"

def CodeDuplicateConstValue : String := "duplicate-const-value"

def CodeInvalidPropertyCase : String := "invalid-property-case"

def CodeLargeUnion : String := "large-union"

def CodeNestedUnion : String := "nested-union"

def CodeAdditionalProps : String := "additional-properties"

def CodeAmbiguousUnion : String := "ambiguous-union"

def CodeCircularReference : String := "circular-reference"

def CodeCompositionDisallowed : String := "composition-disallowed"

def CodeAdditionalPropsDisallowed : String := "additional-properties-disallowed"

def CodeMissingType : String := "missing-type"

def CodeMixedTypeDisallowed : String := "mixed-type-disallowed"

/-- One lint finding, mirroring `Issue` in `issue.go`. -/
structure Issue where
  code : String
  severity : String
  path : String
  message : String
  suggestion : String
  typeName : String
deriving DecidableEq, Repr

/-- Profile constants from `linter.go`. -/
def ProfileDefault : String := "default"

def ProfileScale : String := "scale"

/-- Property case constants from `linter.go`. -/
def CaseNone : String := "none"

def CaseCamel : String := "camelCase"

def CaseSnake : String := "snake_case"

def CaseKebab : String := "kebab-case"

def CasePascal : String := "PascalCase"

/-- Linter configuration, mirroring `Config` in `linter.go`.  The numeric
thresholds are Go `int`, embedded as `Int`. -/
structure Config where
  profile : String
  propertyCase : String
  maxUnionVariants : Int
  maxUnionNestingDepth : Int
  discriminatorFields : List String
deriving DecidableEq, Repr

/-- `DefaultConfig` from `linter.go`. -/
def DefaultConfig : Config :=
  { profile := ProfileDefault
    propertyCase := CaseCamel
    maxUnionVariants := 10
    maxUnionNestingDepth := 2
    discriminatorFields := ["component_type", "type", "kind"] }

/-- `Config.IsScaleProfile` from `linter.go`. -/
def Config.IsScaleProfile (c : Config) : Bool := c.profile == ProfileScale

/-- The in-memory JSON Schema node.  `schema.go` is absent from the provided
sources; the fields are reconstructed from their uses in `linter.go` and from
the specification's data-model section (declared type as a single string or a
list, property map, required list, items child, additional-properties policy
as optional boolean plus optional schema, the three composition branch lists,
a constant slot, an enumeration list, a reference string, a boolean-schema
marker, and the two named-definition maps).  Association-list order stands
for Go map iteration order; `Option Schema` stands for a nil-able pointer. -/
inductive Schema where
  | mk :
      (type : String) →
      (typeList : List String) →
      (properties : List (String × Option Schema)) →
      (required : List String) →
      (items : Option Schema) →
      (additionalProperties : Option Bool) →
      (additionalPropertiesSchema : Option Schema) →
      (anyOf : List (Option Schema)) →
      (oneOf : List (Option Schema)) →
      (allOf : List (Option Schema)) →
      (constVal : Option ConstVal) →
      (enum : List ConstVal) →
      (ref : String) →
      (isBooleanSchema : Bool) →
      (defs : List (String × Option Schema)) →
      (definitions : List (String × Option Schema)) →
      Schema

namespace Schema

def type : Schema → String
  | .mk t _ _ _ _ _ _ _ _ _ _ _ _ _ _ _ => t

def typeList : Schema → List String
  | .mk _ tl _ _ _ _ _ _ _ _ _ _ _ _ _ _ => tl

def properties : Schema → List (String × Option Schema)
  | .mk _ _ ps _ _ _ _ _ _ _ _ _ _ _ _ _ => ps

def required : Schema → List String
  | .mk _ _ _ r _ _ _ _ _ _ _ _ _ _ _ _ => r

def items : Schema → Option Schema
  | .mk _ _ _ _ it _ _ _ _ _ _ _ _ _ _ _ => it

def additionalProperties : Schema → Option Bool
  | .mk _ _ _ _ _ ap _ _ _ _ _ _ _ _ _ _ => ap

def additionalPropertiesSchema : Schema → Option Schema
  | .mk _ _ _ _ _ _ aps _ _ _ _ _ _ _ _ _ => aps

def anyOf : Schema → List (Option Schema)
  | .mk _ _ _ _ _ _ _ a _ _ _ _ _ _ _ _ => a

def oneOf : Schema → List (Option Schema)
  | .mk _ _ _ _ _ _ _ _ o _ _ _ _ _ _ _ => o

def allOf : Schema → List (Option Schema)
  | .mk _ _ _ _ _ _ _ _ _ al _ _ _ _ _ _ => al

def constVal : Schema → Option ConstVal
  | .mk _ _ _ _ _ _ _ _ _ _ c _ _ _ _ _ => c

def enum : Schema → List ConstVal
  | .mk _ _ _ _ _ _ _ _ _ _ _ e _ _ _ _ => e

def ref : Schema → String
  | .mk _ _ _ _ _ _ _ _ _ _ _ _ r _ _ _ => r

def isBooleanSchema : Schema → Bool
  | .mk _ _ _ _ _ _ _ _ _ _ _ _ _ b _ _ => b

def defs : Schema → List (String × Option Schema)
  | .mk _ _ _ _ _ _ _ _ _ _ _ _ _ _ d _ => d

def definitions : Schema → List (String × Option Schema)
  | .mk _ _ _ _ _ _ _ _ _ _ _ _ _ _ _ d => d

/-- Modelled from the spec: `schema.go` (absent from the sources) defines
`HasType`; the spec states "Has type" is true if either the single-type field
is non-empty or the type-list is non-empty. -/
def HasType (s : Schema) : Bool := s.type != "" || !s.typeList.isEmpty

/-- Modelled from the spec: `schema.go` (absent from the sources) defines
`HasMixedType`; the spec states it is true only when the type-list has more
than one entry. -/
def HasMixedType (s : Schema) : Bool := s.typeList.length > 1

/-- Modelled from the spec: `schema.go` (absent from the sources) defines
`IsRef`; the spec states a node is a reference iff its reference string is
non-empty. -/
def IsRef (s : Schema) : Bool := s.ref != ""

end Schema

/-!  String helpers.  Go ranges over a string by rune; `String.data` gives the
same code-point sequence.  The `s[0]` byte tests in `isCamelCase` and
`isPascalCase` compare the first byte against ASCII ranges; since a UTF-8
leading byte lies in an ASCII range iff the first rune is that ASCII
character, testing the first `Char` is equivalent. -/

/-- The per-rune body of the camel/Pascal loops in `linter.go`: a rune passes
unless it is outside `a-z`, `A-Z` and `0-9`. -/
def runeAlphaNum (r : Char) : Bool :=
  !((r < 'a' || r > 'z') && (r < 'A' || r > 'Z') && (r < '0' || r > '9'))

/-- `isCamelCase` from `linter.go`. -/
def isCamelCase (s : String) : Bool :=
  match s.data with
  | [] => true
  | c :: _ => !(c < 'a' || c > 'z') && s.data.all runeAlphaNum

/-- `isSnakeCase` from `linter.go`: every rune must be a lowercase letter, a
digit, or an underscore (an empty string has no runes, so it passes). -/
def isSnakeCase (s : String) : Bool :=
  s.data.all fun r => !((r < 'a' || r > 'z') && (r < '0' || r > '9') && r != '_')

/-- `isKebabCase` from `linter.go`. -/
def isKebabCase (s : String) : Bool :=
  s.data.all fun r => !((r < 'a' || r > 'z') && (r < '0' || r > '9') && r != '-')

/-- `isPascalCase` from `linter.go`. -/
def isPascalCase (s : String) : Bool :=
  match s.data with
  | [] => true
  | c :: _ => !(c < 'A' || c > 'Z') && s.data.all runeAlphaNum

/-- Does `sub` occur at the head of `s`?  Helper for `contains`. -/
def startsWith : List Char → List Char → Bool
  | _, [] => true
  | [], _ :: _ => false
  | c :: cs, d :: ds => c == d && startsWith cs ds

/-- Scan of `containsImpl` from `linter.go`: check the pattern at every start
position (byte positions coincide with rune positions for the ASCII patterns
`"Reference"`/`"Ref"` this is used with). -/
def containsSeq : List Char → List Char → Bool
  | [], sub => sub.isEmpty
  | c :: cs, sub => startsWith (c :: cs) sub || containsSeq cs sub

/-- `contains` from `linter.go` (substring containment). -/
def contains (s sub : String) : Bool := containsSeq s.data sub.data

/-- `allRefs` from `linter.go`: nil variants are skipped; a single non-nil
variant with an empty `Ref` refutes. -/
def allRefs (variants : List (Option Schema)) : Bool :=
  variants.all fun v =>
    match v with
    | none => true
    | some s => s.ref != ""

/-- `isNullablePattern` from `linter.go`.  The Go loop sets two monotone
flags, `hasNull` (some non-nil branch with `Type == "null"`) and `hasType`
(some non-nil branch where the `else if` fires: `Type != "null"` and
(`Type != ""` or `Ref != ""`)); that is equivalent to the two scans below. -/
def isNullablePattern (variants : List (Option Schema)) : Bool :=
  variants.length == 2 &&
    (variants.any fun v =>
      match v with
      | none => false
      | some s => s.type == "null") &&
    (variants.any fun v =>
      match v with
      | none => false
      | some s => s.type != "null" && (s.type != "" || s.ref != ""))

/-- `isReferencePattern` from `linter.go`: exactly two branches and some
non-nil branch either declares a non-nil `$component_ref` property or is a
`$ref` whose target contains `"Reference"` or `"Ref"`. -/
def isReferencePattern (variants : List (Option Schema)) : Bool :=
  variants.length == 2 &&
    variants.any fun v =>
      match v with
      | none => false
      | some s =>
          (match s.properties.lookup "$component_ref" with
           | some (some _) => true
           | _ => false) ||
          (s.ref != "" && (contains s.ref "Reference" || contains s.ref "Ref"))

/-- Is a branch one that `findDiscriminator` counts: non-nil and not a
`$ref`? -/
def isResolvedBranch (v : Option Schema) : Bool :=
  match v with
  | none => false
  | some s => s.ref == ""

/-- The number of branches `findDiscriminator` counts (its
`resolvedVariants`). -/
def resolvedCount (variants : List (Option Schema)) : Nat :=
  variants.countP isResolvedBranch

/-- The string constant declared for `field` by one variant, if the variant
is non-nil, not a `$ref`, has the property non-nil, and its `const` is a
string — exactly the conditions under which the counting loop in
`findDiscriminator` increments `candidates[field][strVal]`. -/
def branchConst (field : String) (v : Option Schema) : Option String :=
  match v with
  | none => none
  | some s =>
      if s.ref != "" then none
      else
        match s.properties.lookup field with
        | some (some p) =>
            match p.constVal with
            | some (.str val) => some val
            | _ => none
        | _ => none

/-- All string constants collected for `field` across the variants, in branch
order; the Go `candidates[field]` map holds exactly their value counts. -/
def collectConsts (field : String) (variants : List (Option Schema)) : List String :=
  variants.filterMap (branchConst field)

/-- The qualification test in `findDiscriminator`'s second loop:
`len(values) == resolvedVariants && resolvedVariants > 0` and every count is
1.  The number of keys of the count map is the number of distinct collected
values (`dedup.length`), and "every count is 1" says no value was collected
twice (`Nodup`). -/
def fieldQualifies (variants : List (Option Schema)) (field : String) : Bool :=
  (collectConsts field variants).dedup.length == resolvedCount variants &&
    resolvedCount variants > 0 &&
    decide (collectConsts field variants).Nodup

/-- `findDiscriminator` from `linter.go`, reduced to the field name it
reports (the accompanying value-count map is never read by the caller):
fewer than two variants yield nothing, otherwise the first qualifying
candidate field in configured order wins. -/
def findDiscriminator (cfg : Config) (variants : List (Option Schema)) : Option String :=
  if variants.length < 2 then none
  else cfg.discriminatorFields.find? (fieldQualifies variants)

/-- The per-branch body of `verifyDiscriminator`, threading the index and the
set of already-seen string values (the Go `seenValues` map, as a list queried
by membership). -/
def verifyDiscriminatorAux (field path : String) :
    List (Option Schema) → Nat → List String → List Issue
  | [], _, _ => []
  | v :: rest, i, seen =>
      match v with
      | none => verifyDiscriminatorAux field path rest (i + 1) seen
      | some s =>
          if s.ref != "" then verifyDiscriminatorAux field path rest (i + 1) seen
          else
            match s.properties.lookup field with
            | none | some none =>
                { code := CodeMissingConst
                  severity := SeverityError
                  path := path ++ "/" ++ toString i
                  message := "Variant missing discriminator property '" ++ field ++ "'"
                  suggestion := "Add '" ++ field ++ "' property with a const value to this variant"
                  typeName := "" } ::
                  verifyDiscriminatorAux field path rest (i + 1) seen
            | some (some p) =>
                match p.constVal with
                | none =>
                    { code := CodeMissingConst
                      severity := SeverityError
                      path := path ++ "/" ++ toString i ++ "/properties/" ++ field
                      message := "Discriminator property '" ++ field ++ "' has no const value"
                      suggestion := "Add 'const' to the '" ++ field ++ "' property with a unique string value"
                      typeName := "" } ::
                      verifyDiscriminatorAux field path rest (i + 1) seen
                | some (.other _) => verifyDiscriminatorAux field path rest (i + 1) seen
                | some (.str strVal) =>
                    if seen.contains strVal then
                      { code := CodeDuplicateConstValue
                        severity := SeverityError
                        path := path ++ "/" ++ toString i ++ "/properties/" ++ field
                        message := "Duplicate discriminator value '" ++ strVal ++ "'"
                        suggestion := "Each variant must have a unique const value for the discriminator"
                        typeName := "" } ::
                        verifyDiscriminatorAux field path rest (i + 1) (strVal :: seen)
                    else verifyDiscriminatorAux field path rest (i + 1) (strVal :: seen)

/-- `verifyDiscriminator` from `linter.go` (only the discriminator's field
name is consumed from the `discriminatorInfo` argument). -/
def verifyDiscriminator (variants : List (Option Schema)) (field path : String) : List Issue :=
  verifyDiscriminatorAux field path variants 0 []

/-- The `additionalProperties` loop over union variants in `lintUnion`
(`linter.go` lines 362-375): nil and `$ref` variants are skipped; a variant
with `additionalProperties: true` yields a warning at its index. -/
def additionalPropsIssues (path : String) : List (Option Schema) → Nat → List Issue
  | [], _ => []
  | v :: rest, i =>
      (match v with
       | none => []
       | some s =>
           if s.ref != "" then []
           else
             match s.additionalProperties with
             | some true =>
                 [{ code := CodeAdditionalProps
                    severity := SeverityWarning
                    path := path ++ "/" ++ toString i
                    message := "Union variant has additionalProperties: true"
                    suggestion := "Set additionalProperties: false to avoid ambiguous JSON decoding"
                    typeName := "" }]
             | _ => []) ++
        additionalPropsIssues path rest (i + 1)

/-- Formatting of a Go `%v` string slice, used in the mixed-type message. -/
def formatStrList (l : List String) : String := "[" ++ String.intercalate " " l ++ "]"

/-- `lintScaleProfile` from `linter.go`, in source emission order: the three
composition checks, the open-object check, the missing-type check (only for
meaningful non-reference, non-boolean nodes), and the mixed-type check. -/
def lintScaleProfile (s : Schema) (path : String) : List Issue :=
  (if s.anyOf.length > 0 then
    [{ code := CodeCompositionDisallowed
       severity := SeverityError
       path := path ++ "/anyOf"
       message := "anyOf is disallowed in scale profile"
       suggestion := "Use separate schema definitions instead of unions"
       typeName := "" }]
   else []) ++
  (if s.oneOf.length > 0 then
    [{ code := CodeCompositionDisallowed
       severity := SeverityError
       path := path ++ "/oneOf"
       message := "oneOf is disallowed in scale profile"
       suggestion := "Use separate schema definitions instead of unions"
       typeName := "" }]
   else []) ++
  (if s.allOf.length > 0 then
    [{ code := CodeCompositionDisallowed
       severity := SeverityError
       path := path ++ "/allOf"
       message := "allOf is disallowed in scale profile"
       suggestion := "Flatten the schema structure instead of using composition"
       typeName := "" }]
   else []) ++
  (match s.additionalProperties with
   | some true =>
       [{ code := CodeAdditionalPropsDisallowed
          severity := SeverityError
          path := path
          message := "additionalProperties: true is disallowed in scale profile"
          suggestion := "Set additionalProperties: false or remove it to ensure strict type mapping"
          typeName := "" }]
   | _ => []) ++
  (if !s.HasType && !s.IsRef && !s.isBooleanSchema then
    if s.properties.length > 0 || s.items.isSome || s.constVal.isSome || s.enum.length > 0 then
      [{ code := CodeMissingType
         severity := SeverityError
         path := path
         message := "missing explicit type field in scale profile"
         suggestion := "Add a 'type' field to specify the schema type"
         typeName := "" }]
    else []
   else []) ++
  (if s.HasMixedType then
    [{ code := CodeMixedTypeDisallowed
       severity := SeverityError
       path := path
       message := "mixed type array " ++ formatStrList s.typeList ++ " is disallowed in scale profile"
       suggestion := "Use a single type; for nullable types, use a separate null check"
       typeName := "" }]
   else [])

/-- `lintProperties` from `linter.go`: each property name is checked against
the configured convention (the Go `switch` leaves `isValid` false for any
unlisted convention value). -/
def lintProperties (cfg : Config) (s : Schema) (path : String) : List Issue :=
  s.properties.flatMap fun pr =>
    let propName := pr.1
    let isValid :=
      if cfg.propertyCase == CaseCamel then isCamelCase propName
      else if cfg.propertyCase == CaseSnake then isSnakeCase propName
      else if cfg.propertyCase == CaseKebab then isKebabCase propName
      else if cfg.propertyCase == CasePascal then isPascalCase propName
      else false
    if !isValid then
      [{ code := CodeInvalidPropertyCase
         severity := SeverityError
         path := path ++ "/properties/" ++ propName
         message := "Property '" ++ propName ++ "' is not in " ++ cfg.propertyCase
         suggestion := "Rename property to follow the " ++ cfg.propertyCase ++ " convention"
         typeName := "" }]
    else []

mutual

/-- `lintSchema` from `linter.go`: a nil node yields nothing; otherwise the
scale-profile checks run first (when active), then union analysis of `anyOf`
and `oneOf`, then recursion into properties, items and the
additional-properties schema (union-nesting depth unchanged), then the
naming-convention check (when a convention is configured).  The Go version
appends into a shared result; concatenation in call order is the same issue
sequence.  The nil guards Go places around the `items` and
`additionalProperties` recursions are subsumed by the callee's nil case. -/
def lintSchema (cfg : Config) (s? : Option Schema) (path : String) (unionDepth : Nat) :
    List Issue :=
  match s? with
  | none => []
  | some s =>
      have _h1 : sizeOf s.anyOf < sizeOf s := by
        cases s; simp [Schema.anyOf]; omega
      have _h2 : sizeOf s.oneOf < sizeOf s := by
        cases s; simp [Schema.oneOf]; omega
      have _h3 : sizeOf s.properties < sizeOf s := by
        cases s; simp [Schema.properties]; omega
      have _h4 : sizeOf s.items < sizeOf s := by
        cases s; simp [Schema.items]; omega
      have _h5 : sizeOf s.additionalPropertiesSchema < sizeOf s := by
        cases s; simp [Schema.additionalPropertiesSchema]; omega
      (if cfg.IsScaleProfile then lintScaleProfile s path else []) ++
      (if s.anyOf.length > 0 then lintUnion cfg s.anyOf (path ++ "/anyOf") unionDepth "anyOf"
       else []) ++
      (if s.oneOf.length > 0 then lintUnion cfg s.oneOf (path ++ "/oneOf") unionDepth "oneOf"
       else []) ++
      lintPropsRec cfg s.properties path unionDepth ++
      lintSchema cfg s.items (path ++ "/items") unionDepth ++
      lintSchema cfg s.additionalPropertiesSchema (path ++ "/additionalProperties") unionDepth ++
      (if cfg.propertyCase != CaseNone then lintProperties cfg s path else [])
termination_by 2 * sizeOf s?
decreasing_by
  all_goals simp_wf
  all_goals omega

/-- The `range schema.Properties` recursion loop of `lintSchema`
(`linter.go` lines 143-146); list order stands for map iteration order. -/
def lintPropsRec (cfg : Config) (props : List (String × Option Schema)) (path : String)
    (unionDepth : Nat) : List Issue :=
  match props with
  | [] => []
  | (propName, propSchema) :: rest =>
      lintSchema cfg propSchema (path ++ "/properties/" ++ propName) unionDepth ++
      lintPropsRec cfg rest path unionDepth
termination_by 2 * sizeOf props
decreasing_by
  all_goals simp_wf
  all_goals omega

/-- `lintUnion` from `linter.go`: nullable and all-reference unions are
skipped entirely; otherwise the size warning, the depth warning, either the
missing-discriminator error or the discriminator verification pass, the
open-variant warnings, and recursion into non-reference variants at depth+1,
in that order. -/
def lintUnion (cfg : Config) (variants : List (Option Schema)) (path : String)
    (unionDepth : Nat) (unionType : String) : List Issue :=
  if isNullablePattern variants then []
  else if allRefs variants then []
  else
    (if (variants.length : Int) > cfg.maxUnionVariants then
      [{ code := CodeLargeUnion
         severity := SeverityWarning
         path := path
         message := "Union has " ++ toString variants.length ++ " variants (threshold: " ++
           toString cfg.maxUnionVariants ++ ")"
         suggestion := "Consider splitting into smaller, more focused unions"
         typeName := "" }]
     else []) ++
    (if (unionDepth : Int) ≥ cfg.maxUnionNestingDepth then
      [{ code := CodeNestedUnion
         severity := SeverityWarning
         path := path
         message := "Union nested " ++ toString (unionDepth + 1) ++ " levels deep (threshold: " ++
           toString cfg.maxUnionNestingDepth ++ ")"
         suggestion := "Flatten the union hierarchy for better Go compatibility"
         typeName := "" }]
     else []) ++
    (match findDiscriminator cfg variants with
     | none =>
         if variants.length > 1 && !isReferencePattern variants then
           [{ code := CodeUnionNoDiscriminator
              severity := SeverityError
              path := path
              message := unionType ++ " union has no discriminator field"
              suggestion := "Add a const property (e.g., 'type' or 'kind') to each variant with a unique value"
              typeName := "" }]
         else []
     | some field => verifyDiscriminator variants field path) ++
    additionalPropsIssues path variants 0 ++
    lintVariantsRec cfg variants path 0 unionDepth
termination_by 2 * sizeOf variants + 1
decreasing_by
  all_goals simp_wf

/-- The final recursion loop of `lintUnion` (`linter.go` lines 378-383):
non-nil, non-reference variants are recursed into at `<path>/<index>` with
the union-nesting depth incremented by one. -/
def lintVariantsRec (cfg : Config) (variants : List (Option Schema)) (path : String)
    (i : Nat) (unionDepth : Nat) : List Issue :=
  match variants with
  | [] => []
  | v :: rest =>
      (match v with
       | some s =>
           if s.ref == "" then
             lintSchema cfg (some s) (path ++ "/" ++ toString i) (unionDepth + 1)
           else []
       | none => []) ++
      lintVariantsRec cfg rest path (i + 1) unionDepth
termination_by 2 * sizeOf variants
decreasing_by
  all_goals simp_wf
  all_goals omega

end

/-- Lint result, mirroring `Result` in `issue.go` (`SchemaPath` is left empty
by `Lint`; only `LintFile` sets it). -/
structure Result where
  schemaPath : String
  issues : List Issue
deriving DecidableEq, Repr

/-- `Result.ErrorCount` from `issue.go`. -/
def Result.ErrorCount (r : Result) : Nat :=
  r.issues.countP fun i => i.severity == SeverityError

/-- `Result.WarningCount` from `issue.go`. -/
def Result.WarningCount (r : Result) : Nat :=
  r.issues.countP fun i => i.severity == SeverityWarning

/-- The number of info-severity issues in a result.  `issue.go` defines no
such query; it is the natural counterpart of the two counts above and is
needed to state the spec's claim that it is always zero. -/
def Result.InfoCount (r : Result) : Nat :=
  r.issues.countP fun i => i.severity == SeverityInfo

/-- `Result.HasErrors` from `issue.go`. -/
def Result.HasErrors (r : Result) : Bool := r.ErrorCount > 0

/-- One definitions bucket of `Lint` (`linter.go` lines 110-119): each named
definition is linted at `base ++ name` with union depth 0; list order stands
for map iteration order. -/
def lintNamedDefs (cfg : Config) (base : String) (entries : List (String × Option Schema)) :
    List Issue :=
  entries.flatMap fun e => lintSchema cfg e.2 (base ++ e.1) 0

/-- The successfully-decoded arm of `Lint` from `linter.go`: the root schema
at `$`, then the `$defs` bucket, then the legacy `definitions` bucket, all
into one shared result. -/
def lintDoc (cfg : Config) (root : Schema) : Result :=
  { schemaPath := ""
    issues :=
      lintSchema cfg (some root) "$" 0 ++
      lintNamedDefs cfg "$/$defs/" root.defs ++
      lintNamedDefs cfg "$/definitions/" root.definitions }

/-- `Lint` from `linter.go`.  JSON decoding itself is out of scope (the spec
treats it as a given decoding primitive), so `Lint` takes the outcome of that
primitive: a decode failure is surfaced as a hard failure with no result, a
decoded document is analyzed to a complete `Result`. -/
def Lint (cfg : Config) (decoded : Except String Schema) : Except String Result :=
  match decoded with
  | .error e => .error ("failed to parse JSON Schema: " ++ e)
  | .ok root => .ok (lintDoc cfg root)

/-!  Claim-side definitions.  The following definitions render the wording of
individual spec claims (not the source), to be compared against the embedded
source functions above. -/

/-- Claim C4's qualification condition, in the spec's words: the set of
distinct string constant values declared for the field across the
non-reference branches has cardinality equal to the number of non-reference
branches, and at least one non-reference branch exists. -/
def claimQualifies (variants : List (Option Schema)) (field : String) : Prop :=
  (collectConsts field variants).toFinset.card = resolvedCount variants ∧
    1 ≤ resolvedCount variants

/-- Claim C4's winner condition, in the spec's words: the field is the first
entry of the configured priority-ordered discriminator list that qualifies;
a later candidate is never returned when an earlier one qualifies. -/
def claimFirstQualifying (cfg : Config) (variants : List (Option Schema)) (field : String) :
    Prop :=
  ∃ pre post, cfg.discriminatorFields = pre ++ field :: post ∧
    claimQualifies variants field ∧ ∀ g ∈ pre, ¬claimQualifies variants g

/-- The constant values declared for `field` by the non-reference branches of
a variant list (any JSON constant, not only strings) — claim C5's notion of
the values "seen" while scanning branches in order. -/
def claimBranchConsts (field : String) (variants : List (Option Schema)) : List ConstVal :=
  variants.filterMap fun v =>
    match v with
    | none => none
    | some s =>
        if s.ref = "" then
          match s.properties.lookup field with
          | some (some p) => p.constVal
          | _ => none
        else none

/-- Display of a constant value inside a duplicate message (the code only
ever reaches this for string constants). -/
def constValText : ConstVal → String
  | .str s => s
  | .other n => toString n

/-- Claim C5's issues for the branch at index `i` of the union: reference
branches (and absent branches) produce nothing; a non-reference branch
missing the field is a missing-const error; one having the field but no
constant value is a missing-const error; one whose constant value equals a
constant already declared by an earlier branch of the same union is a
duplicate-const-value error. -/
def claimBranchIssues (variants : List (Option Schema)) (field path : String) (i : Nat) :
    List Issue :=
  match variants[i]? with
  | none => []
  | some none => []
  | some (some s) =>
      if s.ref ≠ "" then []
      else
        match s.properties.lookup field with
        | none | some none =>
            [{ code := CodeMissingConst
               severity := SeverityError
               path := path ++ "/" ++ toString i
               message := "Variant missing discriminator property '" ++ field ++ "'"
               suggestion := "Add '" ++ field ++ "' property with a const value to this variant"
               typeName := "" }]
        | some (some p) =>
            match p.constVal with
            | none =>
                [{ code := CodeMissingConst
                   severity := SeverityError
                   path := path ++ "/" ++ toString i ++ "/properties/" ++ field
                   message := "Discriminator property '" ++ field ++ "' has no const value"
                   suggestion := "Add 'const' to the '" ++ field ++ "' property with a unique string value"
                   typeName := "" }]
            | some c =>
                if c ∈ claimBranchConsts field (variants.take i) then
                  [{ code := CodeDuplicateConstValue
                     severity := SeverityError
                     path := path ++ "/" ++ toString i ++ "/properties/" ++ field
                     message := "Duplicate discriminator value '" ++ constValText c ++ "'"
                     suggestion := "Each variant must have a unique const value for the discriminator"
                     typeName := "" }]
                else []

/-- Claim C5's description of the whole verification pass: the branch issues
above, for each branch in order. -/
def claimVerifyIssues (variants : List (Option Schema)) (field path : String) : List Issue :=
  (List.range variants.length).flatMap (claimBranchIssues variants field path)

/-!  Two in-memory documents decoded from the same input bytes.  Decoding is
deterministic except for Go map iteration order: scalar fields and
array-valued fields (JSON arrays keep their order) coincide, while each
map-valued field (`Properties`, `Defs`, `Definitions`, at every nesting
level) holds the same entries — distinct keys, and recursively related
values at equal keys — possibly presented in a different `range` order.
`SchemaEquiv` below captures exactly that, recursively: map key lists are
duplicate-free (a decoded Go map cannot repeat a key), equal as multisets,
and values at equal keys are recursively related. -/

mutual

/-- Node-wise equivalence of two presentations of the same decoded schema:
all scalar and array-valued fields equal, all three map-valued fields
related by `SchemaMapEquiv`, children related recursively. -/
def SchemaEquiv (a b : Schema) : Prop :=
  match a, b with
  | .mk t tl ps rq it ap aps any one al c e rf bl d dd,
    .mk t₂ tl₂ ps₂ rq₂ it₂ ap₂ aps₂ any₂ one₂ al₂ c₂ e₂ rf₂ bl₂ d₂ dd₂ =>
      t = t₂ ∧ tl = tl₂ ∧ rq = rq₂ ∧ ap = ap₂ ∧ c = c₂ ∧ e = e₂ ∧ rf = rf₂ ∧
        bl = bl₂ ∧
        SchemaOptEquiv it it₂ ∧ SchemaOptEquiv aps aps₂ ∧
        BranchesEquiv any any₂ ∧ BranchesEquiv one one₂ ∧ BranchesEquiv al al₂ ∧
        SchemaMapEquiv ps ps₂ ∧ SchemaMapEquiv d d₂ ∧ SchemaMapEquiv dd dd₂
termination_by sizeOf a
decreasing_by
  all_goals simp_wf
  all_goals omega

/-- Equivalence of nil-able schema pointers: both absent, or both present
and equivalent. -/
def SchemaOptEquiv : Option Schema → Option Schema → Prop
  | none, none => True
  | some a, some b => SchemaEquiv a b
  | _, _ => False
termination_by v _ => sizeOf v
decreasing_by
  all_goals simp_wf
  all_goals omega

/-- Pointwise equivalence of two branch lists (JSON arrays keep their
order, so the lists are aligned). -/
def BranchesEquiv : List (Option Schema) → List (Option Schema) → Prop
  | [], [] => True
  | v₁ :: l₁, v₂ :: l₂ => SchemaOptEquiv v₁ v₂ ∧ BranchesEquiv l₁ l₂
  | _, _ => False
termination_by l _ => sizeOf l
decreasing_by
  all_goals simp_wf
  all_goals omega

/-- Equivalence of two association-list presentations of one decoded map:
duplicate-free key lists that are permutations of each other, and
equivalent values wherever keys coincide. -/
def SchemaMapEquiv (l₁ l₂ : List (String × Option Schema)) : Prop :=
  (l₁.map Prod.fst).Nodup ∧ (l₂.map Prod.fst).Nodup ∧
    (l₁.map Prod.fst).Perm (l₂.map Prod.fst) ∧
    ∀ e₁ ∈ l₁, ∀ e₂ ∈ l₂, e₁.1 = e₂.1 → SchemaOptEquiv e₁.2 e₂.2
termination_by sizeOf l₁
decreasing_by
  simp_wf
  have hm : sizeOf e₁ < sizeOf l₁ := List.sizeOf_lt_of_mem (by assumption)
  obtain ⟨k, v⟩ := e₁
  simp at hm ⊢
  omega

end

/-!  Concrete schemas used as witnesses and counterexamples. -/

/-- A schema with only a single declared type. -/
def schemaOfType (t : String) : Schema :=
  .mk t [] [] [] none none none [] [] [] none [] "" false [] []

/-- The literal `{"type":"null"}` branch. -/
def nullTypeSchema : Schema := schemaOfType "null"

/-- An object variant whose property `field` carries a string constant. -/
def constVariant (field val : String) : Schema :=
  .mk "object" []
    [(field, some (.mk "" [] [] [] none none none [] [] [] (some (.str val)) [] "" false [] []))]
    [] none none none [] [] [] none [] "" false [] []

/-- An object variant whose property `field` carries a non-string constant. -/
def otherConstVariant (field : String) (n : Nat) : Schema :=
  .mk "object" []
    [(field, some (.mk "" [] [] [] none none none [] [] [] (some (.other n)) [] "" false [] []))]
    [] none none none [] [] [] none [] "" false [] []

/-- An object variant with a single string-typed property and no constants. -/
def propVariant (p : String) : Schema :=
  .mk "object" [] [(p, some (schemaOfType "string"))] [] none none none [] [] [] none [] ""
    false [] []

/-- The default configuration with the scale profile selected. -/
def scaleConfig : Config := { DefaultConfig with profile := ProfileScale }

/-- The root schema of the spec's scale-profile scenario,
`{"type":"object","anyOf":[{"type":"string"}]}`. -/
def c3Root : Schema :=
  .mk "object" [] [] [] none none none [some (schemaOfType "string")] [] [] none [] "" false
    [] []

/-- A definition whose single property name violates camelCase. -/
def badNameDef : Schema :=
  .mk "object" [] [("BadName", some (schemaOfType ""))]
    [] none none none [] [] [] none [] "" false [] []

/-- A document with two named definitions, listed in one map order... -/
def c1DocA : Schema :=
  .mk "" [] [] [] none none none [] [] [] none [] "" false
    [("A", some badNameDef), ("B", some badNameDef)] []

/-- ... and the same document with the other map order. -/
def c1DocB : Schema :=
  .mk "" [] [] [] none none none [] [] [] none [] "" false
    [("B", some badNameDef), ("A", some badNameDef)] []

/-- The dog/cat union branch list from the repository's own tests. -/
def animalVariants : List (Option Schema) :=
  [some (constVariant "type" "dog"), some (constVariant "type" "cat")]

/-!  Helper lemmas and claim theorems. -/

/-- Evaluation of the scale-profile scenario document: exactly one issue. -/
theorem c3_issues_eval :
    (lintDoc scaleConfig c3Root).issues =
      [{ code := CodeCompositionDisallowed
         severity := SeverityError
         path := "$/anyOf"
         message := "anyOf is disallowed in scale profile"
         suggestion := "Use separate schema definitions instead of unions"
         typeName := "" }] := by
  simp [lintDoc, lintNamedDefs, lintSchema, lintUnion, lintPropsRec, lintVariantsRec,
    lintScaleProfile, lintProperties, scaleConfig, c3Root, schemaOfType, DefaultConfig,
    Config.IsScaleProfile, Schema.anyOf, Schema.oneOf, Schema.allOf, Schema.properties,
    Schema.items, Schema.additionalProperties, Schema.additionalPropertiesSchema,
    Schema.constVal, Schema.enum, Schema.type, Schema.typeList, Schema.ref,
    Schema.isBooleanSchema, Schema.defs, Schema.definitions, Schema.HasType,
    Schema.HasMixedType, Schema.IsRef, isNullablePattern, allRefs, isReferencePattern,
    findDiscriminator, fieldQualifies, collectConsts, branchConst, resolvedCount, isResolvedBranch,
    additionalPropsIssues, ProfileScale, ProfileDefault, CaseCamel, CaseNone]

/-- Claim C3 counterexample: on `{"type":"object","anyOf":[{"type":"string"}]}`
under the scale profile the result does NOT contain at least two
error-severity issues — it contains exactly one issue in total. -/
theorem c3_counterexample : ¬2 ≤ (lintDoc scaleConfig c3Root).ErrorCount := by
  simp [Result.ErrorCount, c3_issues_eval]

/-- Claim C3 (amended): linting `{"type":"object","anyOf":[{"type":"string"}]}`
under the scale profile produces exactly one issue — an error-severity
composition-disallowed issue for the anyOf keyword — and no missing-type
error for the root node because it declares an explicit type. -/
theorem c3_scale_scenario :
    (lintDoc scaleConfig c3Root).ErrorCount = 1 ∧
      (lintDoc scaleConfig c3Root).issues.countP
        (fun i => i.code == CodeCompositionDisallowed && i.path == "$/anyOf" &&
          i.severity == SeverityError) = 1 ∧
      ((lintDoc scaleConfig c3Root).issues.all fun i => i.code != CodeMissingType) = true := by
  refine ⟨?_, ?_, ?_⟩ <;>
    simp [Result.ErrorCount, c3_issues_eval, CodeCompositionDisallowed, CodeMissingType,
      SeverityError]

/-- Claim C6 counterexample: the snake_case and kebab-case checks do NOT
reject the empty string — both accept it (their loops have no iterations). -/
theorem c6_counterexample : isSnakeCase "" = true ∧ isKebabCase "" = true := by
  constructor <;> rfl

/-- Claim C6 (amended): the empty string is accepted by all four
naming-convention checks — camelCase, PascalCase, snake_case and kebab-case
all vacuously validate it. -/
theorem c6_empty_accepted_by_all :
    isCamelCase "" = true ∧ isPascalCase "" = true ∧ isSnakeCase "" = true ∧
      isKebabCase "" = true := by
  refine ⟨rfl, rfl, rfl, rfl⟩

/-- Claim C8: the lint operation fails exactly when the input could not be
decoded into the schema document model; every successfully decoded document
yields a complete `Result` (the traversal is total — it is a terminating
function — and never aborts on schema content). -/
theorem c8_lint_ok_iff_decode_ok :
    ∀ (cfg : Config) (d : Except String Schema),
      (∃ r, Lint cfg d = Except.ok r) ↔ ∃ s, d = Except.ok s := by
  intro cfg d
  cases d <;> simp [Lint]

/-- Claim C2 counterexample: take both branches to be the literal
`{"type":"null"}` schema.  Then one branch is the literal null-typed schema
and the other branch has a declared type (`"null"` is a non-empty `type`
string), so the claim promises zero issues for the union — but the analyzer
emits a union-no-discriminator error. -/
theorem c2_counterexample :
    nullTypeSchema.type = "null" ∧
      (nullTypeSchema.type ≠ "" ∨ nullTypeSchema.ref ≠ "") ∧
      lintUnion DefaultConfig [some nullTypeSchema, some nullTypeSchema] "$/anyOf" 0 "anyOf"
        ≠ [] := by
  refine ⟨rfl, Or.inl (by decide), ?_⟩
  simp [lintUnion, lintVariantsRec, lintSchema, lintPropsRec, lintProperties,
    nullTypeSchema, schemaOfType, DefaultConfig, Config.IsScaleProfile,
    Schema.anyOf, Schema.oneOf, Schema.allOf, Schema.properties, Schema.items,
    Schema.additionalProperties, Schema.additionalPropertiesSchema, Schema.constVal,
    Schema.enum, Schema.type, Schema.typeList, Schema.ref, Schema.isBooleanSchema,
    isNullablePattern, allRefs, isReferencePattern, findDiscriminator, fieldQualifies,
    collectConsts, branchConst, resolvedCount, isResolvedBranch, additionalPropsIssues,
    ProfileScale, ProfileDefault, CaseCamel, CaseNone]

/-- Claim C2 (amended): for a two-branch union where one branch is the
literal null-typed schema and the other branch declares a single type other
than null in its `type` string, or carries a non-empty reference string, the
analyzer produces zero issues for that union and does not recurse into its
branches. -/
theorem c2_nullable_union_skipped :
    ∀ (cfg : Config) (vs : List (Option Schema)) (path : String) (d : Nat) (k : String),
      vs.length = 2 →
      (∃ s, some s ∈ vs ∧ s.type = "null") →
      (∃ t, some t ∈ vs ∧ t.type ≠ "null" ∧ (t.type ≠ "" ∨ t.ref ≠ "")) →
      lintUnion cfg vs path d k = [] := by
  intro cfg vs path d k hlen hnull htyped
  have hpat : isNullablePattern vs = true := by
    obtain ⟨s, hs, hstype⟩ := hnull
    obtain ⟨t, ht, httype, hor⟩ := htyped
    simp only [isNullablePattern, Bool.and_eq_true, beq_iff_eq, List.any_eq_true]
    refine ⟨⟨hlen, ⟨some s, hs, by simp [hstype]⟩⟩, ⟨some t, ht, ?_⟩⟩
    simp only [Bool.and_eq_true, bne_iff_ne]
    rcases hor with h | h
    · exact ⟨httype, by simp [h]⟩
    · exact ⟨httype, by simp [h]⟩
  simp [lintUnion, hpat]

/-- Claim C2 witness: a string-or-null union is fully skipped. -/
theorem c2_witness :
    lintUnion DefaultConfig [some (schemaOfType "string"), some nullTypeSchema] "$/anyOf" 0
      "anyOf" = [] := by
  apply c2_nullable_union_skipped
  · rfl
  · exact ⟨nullTypeSchema, List.Mem.tail _ (List.Mem.head _), rfl⟩
  · exact ⟨schemaOfType "string", List.Mem.head _, by decide, Or.inl (by decide)⟩

/-- Claim C7: a union reaching `lintUnion` at nesting depth `d` at or above
the configured maximum, and not short-circuited as nullable or
all-reference, yields a nested-union warning whose message reports `d + 1`
against the threshold (the traversal supplies depth 0 at the roots,
increments it exactly when recursing into union branches, and leaves it
unchanged when recursing into properties, items and additional-properties
schemas — see `lintSchema`, `lintVariantsRec` and `lintDoc`). -/
theorem c7_nested_union_warning :
    ∀ (cfg : Config) (vs : List (Option Schema)) (path : String) (d : Nat) (k : String),
      isNullablePattern vs = false → allRefs vs = false →
      cfg.maxUnionNestingDepth ≤ (d : Int) →
      ({ code := CodeNestedUnion
         severity := SeverityWarning
         path := path
         message := "Union nested " ++ toString (d + 1) ++ " levels deep (threshold: " ++
           toString cfg.maxUnionNestingDepth ++ ")"
         suggestion := "Flatten the union hierarchy for better Go compatibility"
         typeName := "" } : Issue) ∈ lintUnion cfg vs path d k := by
  intro cfg vs path d k h1 h2 h3
  simp [lintUnion, h1, h2, h3]

/-- Claim C7 witness: the two-variant union at depth 2 under the default
configuration (threshold 2) gets the warning reporting depth 3. -/
theorem c7_witness :
    ({ code := CodeNestedUnion
       severity := SeverityWarning
       path := "$/anyOf"
       message := "Union nested 3 levels deep (threshold: 2)"
       suggestion := "Flatten the union hierarchy for better Go compatibility"
       typeName := "" } : Issue) ∈
      lintUnion DefaultConfig [some (propVariant "name"), some (propVariant "title")]
        "$/anyOf" 2 "anyOf" := by
  have h := c7_nested_union_warning DefaultConfig
    [some (propVariant "name"), some (propVariant "title")] "$/anyOf" 2 "anyOf"
    (by decide) (by decide) (by decide)
  simpa using h

/-- A branch that contributes a collected constant is a counted branch. -/
theorem isResolvedBranch_of_branchConst {field : String} {v : Option Schema} {x : String}
    (h : branchConst field v = some x) : isResolvedBranch v = true := by
  cases v with
  | none => simp [branchConst] at h
  | some s =>
      simp only [branchConst] at h
      by_cases hr : s.ref != ""
      · simp [hr] at h
      · simp only [isResolvedBranch]
        simpa using hr

/-- Each counted branch contributes at most one constant, so the collection
is no longer than the counted-branch number. -/
theorem collectConsts_length_le (field : String) (vs : List (Option Schema)) :
    (collectConsts field vs).length ≤ resolvedCount vs := by
  induction vs with
  | nil => simp [collectConsts, resolvedCount]
  | cons v rest ih =>
      simp only [collectConsts, resolvedCount, List.filterMap_cons, List.countP_cons] at *
      cases hv : branchConst field v with
      | none =>
          cases hr : isResolvedBranch v <;> simp [hr] <;> omega
      | some x =>
          have hr : isResolvedBranch v = true := isResolvedBranch_of_branchConst hv
          simp [hr]
          omega

/-- If the collection is as long as the counted-branch number, every counted
branch contributed a (string) constant. -/
theorem branchConst_isSome_of_length_eq {field : String} {vs : List (Option Schema)}
    (h : (collectConsts field vs).length = resolvedCount vs) :
    ∀ v ∈ vs, isResolvedBranch v = true → (branchConst field v).isSome = true := by
  induction vs with
  | nil => simp
  | cons v rest ih =>
      have hle : (collectConsts field rest).length ≤ resolvedCount rest :=
        collectConsts_length_le field rest
      have hcons : (collectConsts field (v :: rest)).length =
          (if (branchConst field v).isSome then 1 else 0) +
            (collectConsts field rest).length := by
        simp only [collectConsts, List.filterMap_cons]
        cases branchConst field v with
        | none => simp
        | some x => simp; omega
      have hcount : resolvedCount (v :: rest) =
          resolvedCount rest + (if isResolvedBranch v then 1 else 0) := by
        simp [resolvedCount, List.countP_cons]
      rw [hcons, hcount] at h
      intro w hw hres
      rcases List.mem_cons.mp hw with rfl | hw
      · cases hv : branchConst field w with
        | some x => simp
        | none =>
            exfalso
            simp [hv, hres] at h
            omega
      · have hrest : (collectConsts field rest).length = resolvedCount rest := by
          cases hv : branchConst field v with
          | some x =>
              have hr : isResolvedBranch v = true := isResolvedBranch_of_branchConst hv
              simp [hv, hr] at h
              omega
          | none =>
              cases hr : isResolvedBranch v <;> simp [hv, hr] at h <;> omega
        exact ih hrest w hw hres

/-- The source qualification test agrees with the claim's wording: the
redundant all-counts-are-one conjunct is forced by the cardinality equation,
since the collection cannot be longer than the counted-branch number. -/
theorem fieldQualifies_iff_claimQualifies (vs : List (Option Schema)) (f : String) :
    fieldQualifies vs f = true ↔ claimQualifies vs f := by
  unfold fieldQualifies claimQualifies
  rw [List.card_toFinset]
  constructor
  · intro h
    simp only [Bool.and_eq_true, beq_iff_eq, decide_eq_true_eq] at h
    exact ⟨h.1.1, h.1.2⟩
  · rintro ⟨h1, h2⟩
    have hd1 : (collectConsts f vs).dedup.length ≤ (collectConsts f vs).length :=
      (List.dedup_sublist _).length_le
    have hd2 : (collectConsts f vs).length ≤ resolvedCount vs :=
      collectConsts_length_le f vs
    have hlen : (collectConsts f vs).dedup.length = (collectConsts f vs).length := by omega
    have hnodup : (collectConsts f vs).Nodup :=
      List.dedup_eq_self.mp ((List.dedup_sublist _).eq_of_length hlen)
    simp only [Bool.and_eq_true, beq_iff_eq, decide_eq_true_eq]
    exact ⟨⟨h1, by omega⟩, hnodup⟩

/-- Claim C4 counterexample: on a single-branch list whose only branch
declares a unique string constant for `type`, the claim's condition holds for
`type` (cardinality 1 equals the one non-reference branch, nothing earlier
qualifies), yet the inference returns nothing — the source guards
`len(variants) < 2` first. -/
theorem c4_counterexample :
    findDiscriminator DefaultConfig [some (constVariant "type" "dog")] = none ∧
      claimFirstQualifying DefaultConfig [some (constVariant "type" "dog")] "type" := by
  constructor
  · rfl
  · refine ⟨["component_type"], ["kind"], rfl, ?_, ?_⟩
    · rw [← fieldQualifies_iff_claimQualifies]
      decide
    · intro g hg
      rw [← fieldQualifies_iff_claimQualifies]
      simp at hg
      subst hg
      decide

/-- Claim C4 (amended): the discriminator inference returns field `f`
exactly when the branch list has at least two entries AND `f` is the first
candidate in configured priority order whose distinct declared string
constants across non-reference branches number exactly the non-reference
branches (at least one existing); a later candidate is never returned when
an earlier one qualifies. -/
theorem c4_findDiscriminator_characterization :
    ∀ (cfg : Config) (vs : List (Option Schema)) (f : String),
      findDiscriminator cfg vs = some f ↔
        (2 ≤ vs.length ∧ claimFirstQualifying cfg vs f) := by
  intro cfg vs f
  unfold findDiscriminator claimFirstQualifying
  by_cases hlen : vs.length < 2
  · have h2 : ¬2 ≤ vs.length := by omega
    simp [hlen, h2]
  · rw [if_neg hlen, List.find?_eq_some]
    constructor
    · rintro ⟨hf, pre, post, heq, hpre⟩
      refine ⟨by omega, pre, post, heq, (fieldQualifies_iff_claimQualifies vs f).mp hf, ?_⟩
      intro g hg hq
      have := hpre g hg
      rw [(fieldQualifies_iff_claimQualifies vs g).mpr hq] at this
      simp at this
    · rintro ⟨_, pre, post, heq, hq, hpre⟩
      refine ⟨(fieldQualifies_iff_claimQualifies vs f).mpr hq, pre, post, heq, ?_⟩
      intro g hg
      have := hpre g hg
      rw [← fieldQualifies_iff_claimQualifies] at this
      simpa using this

/-- An absent branch contributes no constant. -/
theorem branchConst_none (field : String) : branchConst field none = none := rfl

/-- When a counted branch is known to contribute, its property/constant shape
is fully determined: the lookup succeeds and carries a string constant. -/
theorem branchConst_shape {field : String} {s : Schema}
    (href : s.ref = "")
    (h : (branchConst field (some s)).isSome = true) :
    ∃ p val, s.properties.lookup field = some (some p) ∧
      p.constVal = some (.str val) ∧ branchConst field (some s) = some val := by
  simp only [branchConst, href, bne_self_eq_false, Bool.false_eq_true, if_false] at h
  cases hl : s.properties.lookup field with
  | none => rw [hl] at h; simp at h
  | some po =>
      cases po with
      | none => rw [hl] at h; simp at h
      | some p =>
          rw [hl] at h
          simp only [] at h
          cases hc : p.constVal with
          | none => simp [hc] at h
          | some c =>
              cases c with
              | str val =>
                  refine ⟨p, val, rfl, hc, ?_⟩
                  simp [branchConst, href, hl, hc]
              | other n => simp [hc] at h

/-- A reference branch contributes no constant. -/
theorem branchConst_ref {field : String} {s : Schema} (href : ¬s.ref = "") :
    branchConst field (some s) = none := by
  simp [branchConst, bne_iff_ne, href]

/-- The collection ignores an absent head branch. -/
theorem collectConsts_cons_none (field : String) (rest : List (Option Schema)) :
    collectConsts field (none :: rest) = collectConsts field rest := by
  simp [collectConsts, List.filterMap_cons, branchConst]

/-- The collection ignores a reference head branch. -/
theorem collectConsts_cons_ref {field : String} {s : Schema} (href : ¬s.ref = "")
    (rest : List (Option Schema)) :
    collectConsts field (some s :: rest) = collectConsts field rest := by
  simp [collectConsts, List.filterMap_cons, branchConst_ref href]

/-- The collection starts with the head's contribution when there is one. -/
theorem collectConsts_cons_some {field : String} {v : Option Schema} {val : String}
    (hbc : branchConst field v = some val) (rest : List (Option Schema)) :
    collectConsts field (v :: rest) = val :: collectConsts field rest := by
  simp [collectConsts, List.filterMap_cons, hbc]

/-- If every counted branch contributes a distinct string constant not yet
seen, the verification scan emits nothing. -/
theorem verifyAux_eq_nil (field path : String) :
    ∀ (vs : List (Option Schema)) (i : Nat) (seen : List String),
      (∀ v ∈ vs, isResolvedBranch v = true → (branchConst field v).isSome = true) →
      (collectConsts field vs).Nodup →
      (∀ x ∈ collectConsts field vs, x ∉ seen) →
      verifyDiscriminatorAux field path vs i seen = [] := by
  intro vs
  induction vs with
  | nil => intro i seen _ _ _; rfl
  | cons v rest ih =>
      intro i seen hall hnodup hseen
      have htail : ∀ v ∈ rest, isResolvedBranch v = true → (branchConst field v).isSome = true :=
        fun w hw hres => hall w (List.Mem.tail _ hw) hres
      cases v with
      | none =>
          rw [collectConsts_cons_none] at hnodup hseen
          simp only [verifyDiscriminatorAux]
          exact ih (i + 1) seen htail hnodup hseen
      | some s =>
          by_cases href : s.ref = ""
          · have hsome : (branchConst field (some s)).isSome = true := by
              apply hall (some s) (List.Mem.head _)
              simp [isResolvedBranch, href]
            obtain ⟨p, val, hl, hc, hbc⟩ := branchConst_shape href hsome
            rw [collectConsts_cons_some hbc] at hnodup hseen
            have hvalseen : val ∉ seen := hseen val (List.Mem.head _)
            simp only [verifyDiscriminatorAux, href, bne_self_eq_false, Bool.false_eq_true,
              if_false, hl, hc]
            rw [if_neg (by simpa using hvalseen)]
            refine ih (i + 1) (val :: seen) htail (List.nodup_cons.mp hnodup).2 ?_
            intro x hx
            simp only [List.mem_cons, not_or]
            refine ⟨?_, hseen x (List.Mem.tail _ hx)⟩
            intro hxval
            subst hxval
            exact (List.nodup_cons.mp hnodup).1 hx
          · rw [collectConsts_cons_ref href] at hnodup hseen
            simp only [verifyDiscriminatorAux]
            rw [if_pos (by simpa [bne_iff_ne] using href)]
            exact ih (i + 1) seen htail hnodup hseen

/-- When every counted branch contributes, the claim's seen-value list is
exactly the collected string constants. -/
theorem claimBranchConsts_eq_map {field : String} :
    ∀ (l : List (Option Schema)),
      (∀ v ∈ l, isResolvedBranch v = true → (branchConst field v).isSome = true) →
      claimBranchConsts field l = (collectConsts field l).map ConstVal.str := by
  intro l
  induction l with
  | nil => intro _; rfl
  | cons v rest ih =>
      intro hall
      have htail : claimBranchConsts field rest = (collectConsts field rest).map ConstVal.str :=
        ih fun w hw hres => hall w (List.Mem.tail _ hw) hres
      cases v with
      | none =>
          rw [collectConsts_cons_none]
          simp only [claimBranchConsts, List.filterMap_cons]
          simp only [claimBranchConsts] at htail
          exact htail
      | some s =>
          by_cases href : s.ref = ""
          · have hsome : (branchConst field (some s)).isSome = true := by
              apply hall (some s) (List.Mem.head _)
              simp [isResolvedBranch, href]
            obtain ⟨p, val, hl, hc, hbc⟩ := branchConst_shape href hsome
            rw [collectConsts_cons_some hbc]
            simp only [claimBranchConsts, List.filterMap_cons, href, if_pos, hl, hc]
            simp only [claimBranchConsts] at htail
            simp [htail]
          · rw [collectConsts_cons_ref href]
            simp only [claimBranchConsts, List.filterMap_cons]
            rw [if_neg href]
            simp only [claimBranchConsts] at htail
            exact htail

/-- If every counted branch contributes and the contributions are distinct,
the claim's emission description also produces nothing. -/
theorem claimVerifyIssues_eq_nil {vs : List (Option Schema)} {field path : String}
    (hall : ∀ v ∈ vs, isResolvedBranch v = true → (branchConst field v).isSome = true)
    (hnodup : (collectConsts field vs).Nodup) :
    claimVerifyIssues vs field path = [] := by
  unfold claimVerifyIssues
  rw [List.flatMap_eq_nil_iff]
  intro i hi
  rw [List.mem_range] at hi
  unfold claimBranchIssues
  rw [List.getElem?_eq_getElem hi]
  cases hv : vs[i] with
  | none => simp
  | some s =>
      by_cases href : s.ref = ""
      · have hmem : some s ∈ vs := by
          rw [← hv]; exact List.getElem_mem hi
        have hsome := hall (some s) hmem (by simp [isResolvedBranch, href])
        obtain ⟨p, val, hl, hc, hbc⟩ := branchConst_shape href hsome
        have hprefix : ∀ v ∈ vs.take i, isResolvedBranch v = true →
            (branchConst field v).isSome = true :=
          fun w hw hres => hall w (List.mem_of_mem_take hw) hres
        have hmap := claimBranchConsts_eq_map (vs.take i) hprefix
        have hnotin : val ∉ collectConsts field (vs.take i) := by
          have hsplit : collectConsts field (vs.take i) ++ collectConsts field (vs.drop i) =
              collectConsts field vs := by
            simp only [collectConsts, ← List.filterMap_append, List.take_append_drop]
          have hdrop : vs.drop i = some s :: vs.drop (i + 1) := by
            rw [List.drop_eq_getElem_cons hi, hv]
          intro hvalmem
          have hvaldrop : val ∈ collectConsts field (vs.drop i) := by
            rw [hdrop, collectConsts_cons_some hbc]
            exact List.Mem.head _
          have hnodup' : (collectConsts field (vs.take i) ++
              collectConsts field (vs.drop i)).Nodup := by
            rw [hsplit]; exact hnodup
          exact (List.disjoint_of_nodup_append hnodup') hvalmem hvaldrop
        have hnotin' : ConstVal.str val ∉ claimBranchConsts field (vs.take i) := by
          rw [hmap]
          intro hm
          obtain ⟨x, hx, hxe⟩ := List.mem_map.mp hm
          cases hxe
          exact hnotin hx
        simp [href, hl, hc, hnotin']
      · simp [href]

/-- Claim C5: when the discriminator inference has found a field for a
union's branch list, the verification pass over that same list emits exactly
the per-branch issues the claim describes — for each non-reference branch in
order, a missing-const error if it lacks the field, a missing-const error if
it has the field without a constant, and a duplicate-const-value error if
its constant repeats an earlier branch's; reference branches are skipped.
(Both sides are in fact empty: a found discriminator forces every counted
branch to carry a distinct string constant.) -/
theorem c5_verify_matches_claim :
    ∀ (cfg : Config) (vs : List (Option Schema)) (f path : String),
      findDiscriminator cfg vs = some f →
      verifyDiscriminator vs f path = claimVerifyIssues vs f path := by
  intro cfg vs f path hfind
  unfold findDiscriminator at hfind
  by_cases hlen : vs.length < 2
  · rw [if_pos hlen] at hfind
    exact absurd hfind (by simp)
  · rw [if_neg hlen] at hfind
    have hq : fieldQualifies vs f = true := List.find?_some hfind
    simp only [fieldQualifies, Bool.and_eq_true, beq_iff_eq, decide_eq_true_eq] at hq
    obtain ⟨⟨hdedup, hpos⟩, hnodup⟩ := hq
    have hlen_eq : (collectConsts f vs).length = resolvedCount vs := by
      have hself : (collectConsts f vs).dedup = collectConsts f vs :=
        List.dedup_eq_self.mpr hnodup
      rw [hself] at hdedup
      exact hdedup
    have hall := branchConst_isSome_of_length_eq hlen_eq
    rw [verifyDiscriminator,
      verifyAux_eq_nil f path vs 0 [] hall hnodup (by simp),
      claimVerifyIssues_eq_nil hall hnodup]

/-- Claim C5 witness: the dog/cat union from the repository's tests, where
the inference finds discriminator `type`. -/
theorem c5_witness :
    findDiscriminator DefaultConfig animalVariants = some "type" ∧
      verifyDiscriminator animalVariants "type" "$/anyOf" =
        claimVerifyIssues animalVariants "type" "$/anyOf" :=
  ⟨by decide, c5_verify_matches_claim DefaultConfig animalVariants "type" "$/anyOf" (by decide)⟩

/-- The invariant every emitted issue satisfies: severity is error or
warning (never info), and the code is never the reserved
inconsistent-discriminator code. -/
def GoodIssue (i : Issue) : Prop :=
  (i.severity = SeverityError ∨ i.severity = SeverityWarning) ∧
    i.code ≠ CodeInconsistentDiscriminator

theorem eq_of_mem_ite_singleton {c : Prop} [Decidable c] {x i : Issue}
    (h : i ∈ if c then [x] else []) : i = x := by
  split at h
  · simpa using h
  · simp at h

theorem goodIssue_of_fields {c sev p m sg tn : String}
    (hsev : sev = SeverityError ∨ sev = SeverityWarning)
    (hc : c ≠ CodeInconsistentDiscriminator) :
    GoodIssue
      { code := c, severity := sev, path := p, message := m, suggestion := sg,
        typeName := tn } :=
  ⟨hsev, hc⟩

theorem lintScaleProfile_good (s : Schema) (path : String) :
    ∀ i ∈ lintScaleProfile s path, GoodIssue i := by
  intro i hi
  unfold lintScaleProfile at hi
  simp only [List.mem_append] at hi
  rcases hi with ((((h | h) | h) | h) | h) | h
  · obtain rfl := eq_of_mem_ite_singleton h
    exact goodIssue_of_fields (Or.inl rfl) (by decide)
  · obtain rfl := eq_of_mem_ite_singleton h
    exact goodIssue_of_fields (Or.inl rfl) (by decide)
  · obtain rfl := eq_of_mem_ite_singleton h
    exact goodIssue_of_fields (Or.inl rfl) (by decide)
  · split at h
    · simp only [List.mem_singleton] at h
      subst h
      exact goodIssue_of_fields (Or.inl rfl) (by decide)
    · simp at h
  · split at h
    · obtain rfl := eq_of_mem_ite_singleton h
      exact goodIssue_of_fields (Or.inl rfl) (by decide)
    · simp at h
  · obtain rfl := eq_of_mem_ite_singleton h
    exact goodIssue_of_fields (Or.inl rfl) (by decide)

theorem lintProperties_good (cfg : Config) (s : Schema) (path : String) :
    ∀ i ∈ lintProperties cfg s path, GoodIssue i := by
  intro i hi
  unfold lintProperties at hi
  obtain ⟨pr, hpr, hin⟩ := List.mem_flatMap.mp hi
  obtain rfl := eq_of_mem_ite_singleton hin
  exact goodIssue_of_fields (Or.inl rfl) (by decide)

theorem additionalPropsIssues_good (path : String) :
    ∀ (vs : List (Option Schema)) (n : Nat) (x : Issue),
      x ∈ additionalPropsIssues path vs n → GoodIssue x := by
  intro vs
  induction vs with
  | nil => intro n x hx; simp [additionalPropsIssues] at hx
  | cons v rest ih =>
      intro n x hx
      unfold additionalPropsIssues at hx
      rcases List.mem_append.mp hx with hx | hx
      · split at hx
        · simp at hx
        · split at hx
          · simp at hx
          · split at hx
            · simp only [List.mem_singleton] at hx
              subst hx
              exact goodIssue_of_fields (Or.inr rfl) (by decide)
            · simp at hx
      · exact ih _ x hx

/-- Whenever the inference reports a discriminator for a branch list, the
verification pass over that list emits nothing: qualification forces every
counted branch to carry a pairwise-distinct string constant. -/
theorem verifyDiscriminator_eq_nil_of_found {cfg : Config} {vs : List (Option Schema)}
    {f : String} (hfind : findDiscriminator cfg vs = some f) (path : String) :
    verifyDiscriminator vs f path = [] := by
  unfold findDiscriminator at hfind
  by_cases hlen : vs.length < 2
  · rw [if_pos hlen] at hfind
    exact absurd hfind (by simp)
  · rw [if_neg hlen] at hfind
    have hq : fieldQualifies vs f = true := List.find?_some hfind
    simp only [fieldQualifies, Bool.and_eq_true, beq_iff_eq, decide_eq_true_eq] at hq
    obtain ⟨⟨hdedup, hpos⟩, hnodup⟩ := hq
    have hlen_eq : (collectConsts f vs).length = resolvedCount vs := by
      have hself : (collectConsts f vs).dedup = collectConsts f vs :=
        List.dedup_eq_self.mpr hnodup
      rw [hself] at hdedup
      exact hdedup
    exact verifyAux_eq_nil f path vs 0 []
      (branchConst_isSome_of_length_eq hlen_eq) hnodup (by simp)

theorem sizeOf_anyOf_lt (s : Schema) : sizeOf s.anyOf < sizeOf s := by
  cases s; simp [Schema.anyOf]; omega

theorem sizeOf_oneOf_lt (s : Schema) : sizeOf s.oneOf < sizeOf s := by
  cases s; simp [Schema.oneOf]; omega

theorem sizeOf_properties_lt (s : Schema) : sizeOf s.properties < sizeOf s := by
  cases s; simp [Schema.properties]; omega

theorem sizeOf_items_lt (s : Schema) : sizeOf s.items < sizeOf s := by
  cases s; simp [Schema.items]; omega

theorem sizeOf_aps_lt (s : Schema) : sizeOf s.additionalPropertiesSchema < sizeOf s := by
  cases s; simp [Schema.additionalPropertiesSchema]; omega

/-- Every issue emitted anywhere in the traversal satisfies `GoodIssue`,
proven by strong induction on the size of the visited fragment across the
four mutually recursive traversal functions. -/
theorem lint_emits_good : ∀ n : Nat,
    (∀ (cfg : Config) (s? : Option Schema) (path : String) (d : Nat),
      sizeOf s? ≤ n → ∀ i ∈ lintSchema cfg s? path d, GoodIssue i) ∧
    (∀ (cfg : Config) (props : List (String × Option Schema)) (path : String) (d : Nat),
      sizeOf props ≤ n → ∀ i ∈ lintPropsRec cfg props path d, GoodIssue i) ∧
    (∀ (cfg : Config) (vs : List (Option Schema)) (path : String) (j d : Nat),
      sizeOf vs ≤ n → ∀ i ∈ lintVariantsRec cfg vs path j d, GoodIssue i) ∧
    (∀ (cfg : Config) (vs : List (Option Schema)) (path : String) (d : Nat) (k : String),
      sizeOf vs ≤ n → ∀ i ∈ lintUnion cfg vs path d k, GoodIssue i) := by
  intro n
  induction n using Nat.strong_induction_on with
  | _ n IH =>
  have hschema : ∀ (cfg : Config) (s? : Option Schema) (path : String) (d : Nat),
      sizeOf s? ≤ n → ∀ i ∈ lintSchema cfg s? path d, GoodIssue i := by
    intro cfg s? path d hsz i hi
    rcases s? with _ | s
    · simp [lintSchema] at hi
    · have hs : sizeOf s + 1 ≤ n := by
        simp at hsz
        omega
      simp only [lintSchema, List.mem_append] at hi
      rcases hi with (((((h | h) | h) | h) | h) | h) | h
      · split at h
        · exact lintScaleProfile_good s path i h
        · simp at h
      · split at h
        · have hm : sizeOf s.anyOf < n := by
            have := sizeOf_anyOf_lt s
            omega
          exact (IH _ hm).2.2.2 cfg s.anyOf _ d "anyOf" (le_refl _) i h
        · simp at h
      · split at h
        · have hm : sizeOf s.oneOf < n := by
            have := sizeOf_oneOf_lt s
            omega
          exact (IH _ hm).2.2.2 cfg s.oneOf _ d "oneOf" (le_refl _) i h
        · simp at h
      · have hm : sizeOf s.properties < n := by
          have := sizeOf_properties_lt s
          omega
        exact (IH _ hm).2.1 cfg s.properties path d (le_refl _) i h
      · have hm : sizeOf s.items < n := by
          have := sizeOf_items_lt s
          omega
        exact (IH _ hm).1 cfg s.items _ d (le_refl _) i h
      · have hm : sizeOf s.additionalPropertiesSchema < n := by
          have := sizeOf_aps_lt s
          omega
        exact (IH _ hm).1 cfg s.additionalPropertiesSchema _ d (le_refl _) i h
      · split at h
        · exact lintProperties_good cfg s path i h
        · simp at h
  have hprops : ∀ (cfg : Config) (props : List (String × Option Schema)) (path : String)
      (d : Nat), sizeOf props ≤ n → ∀ i ∈ lintPropsRec cfg props path d, GoodIssue i := by
    intro cfg props path d hsz i hi
    rcases props with _ | ⟨⟨name, c⟩, rest⟩
    · simp [lintPropsRec] at hi
    · rw [lintPropsRec.eq_def] at hi
      simp only [List.mem_append] at hi
      have hsz' : 1 + (1 + sizeOf name + sizeOf c) + sizeOf rest ≤ n := by
        simpa using hsz
      rcases hi with h | h
      · have hm : sizeOf c < n := by omega
        exact (IH _ hm).1 cfg c _ d (le_refl _) i h
      · have hm : sizeOf rest < n := by omega
        exact (IH _ hm).2.1 cfg rest path d (le_refl _) i h
  have hvariants : ∀ (cfg : Config) (vs : List (Option Schema)) (path : String) (j d : Nat),
      sizeOf vs ≤ n → ∀ i ∈ lintVariantsRec cfg vs path j d, GoodIssue i := by
    intro cfg vs path j d hsz i hi
    rcases vs with _ | ⟨v, rest⟩
    · simp [lintVariantsRec] at hi
    · rw [lintVariantsRec.eq_def] at hi
      simp only [List.mem_append] at hi
      have hsz' : 1 + sizeOf v + sizeOf rest ≤ n := by
        simpa using hsz
      rcases hi with h | h
      · split at h
        · rename_i s
          split at h
          · have hm : sizeOf (some s) < n := by omega
            exact (IH _ hm).1 cfg (some s) _ (d + 1) (le_refl _) i h
          · simp at h
        · simp at h
      · have hm : sizeOf rest < n := by omega
        exact (IH _ hm).2.2.1 cfg rest path (j + 1) d (le_refl _) i h
  have hunion : ∀ (cfg : Config) (vs : List (Option Schema)) (path : String) (d : Nat)
      (k : String), sizeOf vs ≤ n → ∀ i ∈ lintUnion cfg vs path d k, GoodIssue i := by
    intro cfg vs path d k hsz i hi
    simp only [lintUnion] at hi
    split at hi
    · simp at hi
    · split at hi
      · simp at hi
      · simp only [List.mem_append] at hi
        rcases hi with (((h | h) | h) | h) | h
        · obtain rfl := eq_of_mem_ite_singleton h
          exact goodIssue_of_fields (Or.inr rfl) (by decide)
        · obtain rfl := eq_of_mem_ite_singleton h
          exact goodIssue_of_fields (Or.inr rfl) (by decide)
        · split at h
          · obtain rfl := eq_of_mem_ite_singleton h
            exact goodIssue_of_fields (Or.inl rfl) (by decide)
          · rename_i f heq
            rw [verifyDiscriminator_eq_nil_of_found heq] at h
            simp at h
        · exact additionalPropsIssues_good path vs 0 i h
        · exact hvariants cfg vs path 0 d hsz i h
  exact ⟨hschema, hprops, hvariants, hunion⟩

/-- Every issue in a full lint result satisfies the invariant. -/
theorem lintDoc_issues_good (cfg : Config) (root : Schema) :
    ∀ i ∈ (lintDoc cfg root).issues, GoodIssue i := by
  intro i hi
  simp only [lintDoc, lintNamedDefs, List.mem_append, List.mem_flatMap] at hi
  rcases hi with (h | ⟨e, _, h⟩) | ⟨e, _, h⟩
  · exact (lint_emits_good (sizeOf (some root))).1 cfg (some root) "$" 0 (le_refl _) i h
  · exact (lint_emits_good (sizeOf e.2)).1 cfg e.2 _ 0 (le_refl _) i h
  · exact (lint_emits_good (sizeOf e.2)).1 cfg e.2 _ 0 (le_refl _) i h

/-- Counting consequence of the severity invariant: no info issues, and the
issues split exactly into errors and warnings. -/
theorem count_split {l : List Issue}
    (h : ∀ i ∈ l, i.severity = SeverityError ∨ i.severity = SeverityWarning) :
    l.countP (fun i => i.severity == SeverityInfo) = 0 ∧
      l.length = l.countP (fun i => i.severity == SeverityError) +
        l.countP (fun i => i.severity == SeverityWarning) := by
  induction l with
  | nil => simp
  | cons a l ih =>
      have ha := h a (List.Mem.head _)
      obtain ⟨h0, hsum⟩ := ih fun i hi => h i (List.Mem.tail _ hi)
      have e1 : (SeverityError == SeverityInfo) = false := by decide
      have e2 : (SeverityError == SeverityError) = true := by decide
      have e3 : (SeverityError == SeverityWarning) = false := by decide
      have e4 : (SeverityWarning == SeverityInfo) = false := by decide
      have e5 : (SeverityWarning == SeverityError) = false := by decide
      have e6 : (SeverityWarning == SeverityWarning) = true := by decide
      rcases ha with ha | ha <;>
        refine ⟨?_, ?_⟩ <;>
          simp [List.countP_cons, ha, e1, e2, e3, e4, e5, e6, h0, hsum] <;>
            omega

/-- Claim C9: no execution path emits the declared but reserved
inconsistent-discriminator issue code — every issue of every lint result has
a different code. -/
theorem c9_no_inconsistent_discriminator :
    ∀ (cfg : Config) (root : Schema),
      ((lintDoc cfg root).issues.all fun i =>
        i.code != CodeInconsistentDiscriminator) = true := by
  intro cfg root
  rw [List.all_eq_true]
  intro i hi
  have hg := (lintDoc_issues_good cfg root i hi).2
  simpa [bne_iff_ne] using hg

/-- Claim C10: every emitted issue has severity error or warning; the info
count of every lint result is zero and the issue count is the error count
plus the warning count. -/
theorem c10_no_info_issues :
    ∀ (cfg : Config) (root : Schema),
      (lintDoc cfg root).InfoCount = 0 ∧
        (lintDoc cfg root).issues.length =
          (lintDoc cfg root).ErrorCount + (lintDoc cfg root).WarningCount := by
  intro cfg root
  have h := count_split (l := (lintDoc cfg root).issues)
    fun i hi => (lintDoc_issues_good cfg root i hi).1
  exact ⟨h.1, h.2⟩

/-- The properties recursion is the flat map of the child visits. -/
theorem lintPropsRec_eq_flatMap (cfg : Config) (props : List (String × Option Schema))
    (path : String) (d : Nat) :
    lintPropsRec cfg props path d =
      props.flatMap fun e => lintSchema cfg e.2 (path ++ "/properties/" ++ e.1) d := by
  induction props with
  | nil => simp [lintPropsRec]
  | cons e rest ih =>
      rcases e with ⟨name, c⟩
      rw [lintPropsRec.eq_def]
      simp only [List.flatMap_cons]
      rw [ih]


/-- Unpacking of `SchemaEquiv` through the field accessors. -/
theorem SchemaEquiv.out {a b : Schema} (h : SchemaEquiv a b) :
    a.type = b.type ∧ a.typeList = b.typeList ∧ a.required = b.required ∧
      a.additionalProperties = b.additionalProperties ∧ a.constVal = b.constVal ∧
      a.enum = b.enum ∧ a.ref = b.ref ∧ a.isBooleanSchema = b.isBooleanSchema ∧
      SchemaOptEquiv a.items b.items ∧
      SchemaOptEquiv a.additionalPropertiesSchema b.additionalPropertiesSchema ∧
      BranchesEquiv a.anyOf b.anyOf ∧ BranchesEquiv a.oneOf b.oneOf ∧
      BranchesEquiv a.allOf b.allOf ∧ SchemaMapEquiv a.properties b.properties ∧
      SchemaMapEquiv a.defs b.defs ∧ SchemaMapEquiv a.definitions b.definitions := by
  cases a
  cases b
  simp only [SchemaEquiv] at h
  simpa [Schema.type, Schema.typeList, Schema.required, Schema.additionalProperties,
    Schema.constVal, Schema.enum, Schema.ref, Schema.isBooleanSchema, Schema.items,
    Schema.additionalPropertiesSchema, Schema.anyOf, Schema.oneOf, Schema.allOf,
    Schema.properties, Schema.defs, Schema.definitions] using h

/-- Branch-list equivalence is the pointwise lifting. -/
theorem branchesEquiv_iff_forall₂ {l₁ l₂ : List (Option Schema)} :
    BranchesEquiv l₁ l₂ ↔ List.Forall₂ SchemaOptEquiv l₁ l₂ := by
  induction l₁ generalizing l₂ with
  | nil => cases l₂ <;> simp [BranchesEquiv]
  | cons v l ih => cases l₂ <;> simp [BranchesEquiv, ih]

theorem branchesEquiv_length {l₁ l₂ : List (Option Schema)} (h : BranchesEquiv l₁ l₂) :
    l₁.length = l₂.length :=
  (branchesEquiv_iff_forall₂.mp h).length_eq

/-- `any` over equivalence-invariant predicates is invariant. -/
theorem branchesEquiv_any_congr {l₁ l₂ : List (Option Schema)} (h : BranchesEquiv l₁ l₂)
    {p : Option Schema → Bool} (hp : ∀ v₁ v₂, SchemaOptEquiv v₁ v₂ → p v₁ = p v₂) :
    l₁.any p = l₂.any p := by
  induction l₁ generalizing l₂ with
  | nil => cases l₂ with
      | nil => rfl
      | cons w l => simp [BranchesEquiv] at h
  | cons v l ih =>
      cases l₂ with
      | nil => simp [BranchesEquiv] at h
      | cons w l' =>
          obtain ⟨hv, hl⟩ : SchemaOptEquiv v w ∧ BranchesEquiv l l' := by
            simpa [BranchesEquiv] using h
          simp [List.any_cons, hp v w hv, ih hl]

/-- `all` over equivalence-invariant predicates is invariant. -/
theorem branchesEquiv_all_congr {l₁ l₂ : List (Option Schema)} (h : BranchesEquiv l₁ l₂)
    {p : Option Schema → Bool} (hp : ∀ v₁ v₂, SchemaOptEquiv v₁ v₂ → p v₁ = p v₂) :
    l₁.all p = l₂.all p := by
  induction l₁ generalizing l₂ with
  | nil => cases l₂ with
      | nil => rfl
      | cons w l => simp [BranchesEquiv] at h
  | cons v l ih =>
      cases l₂ with
      | nil => simp [BranchesEquiv] at h
      | cons w l' =>
          obtain ⟨hv, hl⟩ : SchemaOptEquiv v w ∧ BranchesEquiv l l' := by
            simpa [BranchesEquiv] using h
          simp [List.all_cons, hp v w hv, ih hl]

/-- A lookup misses exactly when the key is absent. -/
theorem lookup_eq_none_iff_key (k : String) (l : List (String × Option Schema)) :
    l.lookup k = none ↔ k ∉ l.map Prod.fst := by
  induction l with
  | nil => simp
  | cons e rest ih =>
      obtain ⟨k', v⟩ := e
      simp only [List.lookup, List.map_cons, List.mem_cons]
      by_cases hk : k == k'
      · have heq : k = k' := eq_of_beq hk
        simp [hk, heq]
      · have hne : ¬k = k' := by simpa using hk
        simp [hk, ih, hne]

/-- A hit returns the value of some entry with that key. -/
theorem mem_of_lookup_eq_some {k : String} {v : Option Schema}
    {l : List (String × Option Schema)} (h : l.lookup k = some v) : (k, v) ∈ l := by
  obtain ⟨l₁, l₂, hsplit, -⟩ := List.lookup_eq_some_iff.mp h
  subst hsplit
  exact List.mem_append.mpr (Or.inr (List.Mem.head _))

/-- Lookups into the two presentations of one map agree: both miss, or both
hit entries with equivalent values. -/
theorem schemaMapEquiv_lookup {l₁ l₂ : List (String × Option Schema)}
    (h : SchemaMapEquiv l₁ l₂) (k : String) :
    (l₁.lookup k = none ∧ l₂.lookup k = none) ∨
      ∃ v₁ v₂, l₁.lookup k = some v₁ ∧ l₂.lookup k = some v₂ ∧ SchemaOptEquiv v₁ v₂ := by
  rw [SchemaMapEquiv] at h
  obtain ⟨hn1, hn2, hperm, hrel⟩ := h
  cases hl1 : l₁.lookup k with
  | none =>
      left
      refine ⟨rfl, ?_⟩
      rw [lookup_eq_none_iff_key] at hl1 ⊢
      exact fun hk => hl1 (hperm.mem_iff.mpr hk)
  | some v₁ =>
      right
      have hm1 : (k, v₁) ∈ l₁ := mem_of_lookup_eq_some hl1
      have hk2 : k ∈ l₂.map Prod.fst := by
        apply hperm.mem_iff.mp
        exact List.mem_map.mpr ⟨(k, v₁), hm1, rfl⟩
      cases hl2 : l₂.lookup k with
      | none =>
          rw [lookup_eq_none_iff_key] at hl2
          exact absurd hk2 hl2
      | some v₂ =>
          have hm2 : (k, v₂) ∈ l₂ := mem_of_lookup_eq_some hl2
          exact ⟨v₁, v₂, rfl, rfl, hrel (k, v₁) hm1 (k, v₂) hm2 rfl⟩

/-- The nullable test only reads each branch's presence, `type` and `ref`. -/
theorem isNullablePattern_congr {vs₁ vs₂ : List (Option Schema)}
    (h : BranchesEquiv vs₁ vs₂) : isNullablePattern vs₁ = isNullablePattern vs₂ := by
  unfold isNullablePattern
  rw [branchesEquiv_length h]
  rw [branchesEquiv_any_congr h (p := fun v =>
    match v with
    | none => false
    | some s => s.type == "null")]
  rw [branchesEquiv_any_congr h (p := fun v =>
    match v with
    | none => false
    | some s => s.type != "null" && (s.type != "" || s.ref != ""))]
  · intro v₁ v₂ hv
    cases v₁ <;> cases v₂ <;> simp [SchemaOptEquiv] at hv ⊢
    obtain ⟨ht, -, -, -, -, -, hrf, -⟩ := SchemaEquiv.out hv
    rw [ht, hrf]
  · intro v₁ v₂ hv
    cases v₁ <;> cases v₂ <;> simp [SchemaOptEquiv] at hv ⊢
    obtain ⟨ht, -⟩ := SchemaEquiv.out hv
    rw [ht]

/-- The all-reference test only reads each branch's presence and `ref`. -/
theorem allRefs_congr {vs₁ vs₂ : List (Option Schema)} (h : BranchesEquiv vs₁ vs₂) :
    allRefs vs₁ = allRefs vs₂ := by
  unfold allRefs
  apply branchesEquiv_all_congr h
  intro v₁ v₂ hv
  cases v₁ <;> cases v₂ <;> simp [SchemaOptEquiv] at hv ⊢
  obtain ⟨-, -, -, -, -, -, hrf, -⟩ := SchemaEquiv.out hv
  rw [hrf]

/-- The reference-pattern test reads branch presence, `ref`, and whether a
non-nil `$component_ref` property exists — all invariant. -/
theorem isReferencePattern_congr {vs₁ vs₂ : List (Option Schema)}
    (h : BranchesEquiv vs₁ vs₂) : isReferencePattern vs₁ = isReferencePattern vs₂ := by
  unfold isReferencePattern
  rw [branchesEquiv_length h]
  rw [branchesEquiv_any_congr h]
  intro v₁ v₂ hv
  cases v₁ with
  | none =>
      cases v₂ with
      | none => rfl
      | some s₂ => simp [SchemaOptEquiv] at hv
  | some s₁ =>
      cases v₂ with
      | none => simp [SchemaOptEquiv] at hv
      | some s₂ =>
          simp only [SchemaOptEquiv] at hv
          obtain ⟨-, -, -, -, -, -, hrf, -, -, -, -, -, -, hps, -⟩ := SchemaEquiv.out hv
          simp only [hrf]
          rcases schemaMapEquiv_lookup hps "$component_ref" with ⟨h1, h2⟩ |
            ⟨w₁, w₂, h1, h2, hvv⟩
          · rw [h1, h2]
          · rw [h1, h2]
            cases w₁ with
            | none =>
                cases w₂ with
                | none => rfl
                | some p₂ => simp [SchemaOptEquiv] at hvv
            | some p₁ =>
                cases w₂ with
                | none => simp [SchemaOptEquiv] at hvv
                | some p₂ => rfl

/-- The counted-branch test reads only presence and `ref`. -/
theorem isResolvedBranch_congr {v₁ v₂ : Option Schema} (hv : SchemaOptEquiv v₁ v₂) :
    isResolvedBranch v₁ = isResolvedBranch v₂ := by
  cases v₁ with
  | none =>
      cases v₂ with
      | none => rfl
      | some s₂ => simp [SchemaOptEquiv] at hv
  | some s₁ =>
      cases v₂ with
      | none => simp [SchemaOptEquiv] at hv
      | some s₂ =>
          simp only [SchemaOptEquiv] at hv
          obtain ⟨-, -, -, -, -, -, hrf, -⟩ := SchemaEquiv.out hv
          simp [isResolvedBranch, hrf]

/-- A branch's contributed constant reads `ref`, the field lookup and the
looked-up property's constant — all invariant. -/
theorem branchConst_congr (field : String) {v₁ v₂ : Option Schema}
    (hv : SchemaOptEquiv v₁ v₂) : branchConst field v₁ = branchConst field v₂ := by
  cases v₁ with
  | none =>
      cases v₂ with
      | none => rfl
      | some s₂ => simp [SchemaOptEquiv] at hv
  | some s₁ =>
      cases v₂ with
      | none => simp [SchemaOptEquiv] at hv
      | some s₂ =>
          simp only [SchemaOptEquiv] at hv
          obtain ⟨-, -, -, -, -, -, hrf, -, -, -, -, -, -, hps, -⟩ := SchemaEquiv.out hv
          unfold branchConst
          simp only [hrf]
          rcases schemaMapEquiv_lookup hps field with ⟨h1, h2⟩ | ⟨w₁, w₂, h1, h2, hw⟩
          · rw [h1, h2]
          · rw [h1, h2]
            cases w₁ with
            | none =>
                cases w₂ with
                | none => rfl
                | some p₂ => simp [SchemaOptEquiv] at hw
            | some p₁ =>
                cases w₂ with
                | none => simp [SchemaOptEquiv] at hw
                | some p₂ =>
                    simp only [SchemaOptEquiv] at hw
                    obtain ⟨-, -, -, -, hcv, -⟩ := SchemaEquiv.out hw
                    simp only [hcv]

/-- Collected constants coincide for equivalent branch lists. -/
theorem collectConsts_congr (field : String) {vs₁ vs₂ : List (Option Schema)}
    (h : BranchesEquiv vs₁ vs₂) : collectConsts field vs₁ = collectConsts field vs₂ := by
  induction vs₁ generalizing vs₂ with
  | nil => cases vs₂ with
      | nil => rfl
      | cons w l => simp [BranchesEquiv] at h
  | cons v l ih =>
      cases vs₂ with
      | nil => simp [BranchesEquiv] at h
      | cons w l' =>
          obtain ⟨hv, hl⟩ : SchemaOptEquiv v w ∧ BranchesEquiv l l' := by
            simpa [BranchesEquiv] using h
          simp only [collectConsts, List.filterMap_cons] at ih ⊢
          rw [branchConst_congr field hv, ih hl]

/-- Counted-branch numbers coincide for equivalent branch lists. -/
theorem resolvedCount_congr {vs₁ vs₂ : List (Option Schema)} (h : BranchesEquiv vs₁ vs₂) :
    resolvedCount vs₁ = resolvedCount vs₂ := by
  induction vs₁ generalizing vs₂ with
  | nil => cases vs₂ with
      | nil => rfl
      | cons w l => simp [BranchesEquiv] at h
  | cons v l ih =>
      cases vs₂ with
      | nil => simp [BranchesEquiv] at h
      | cons w l' =>
          obtain ⟨hv, hl⟩ : SchemaOptEquiv v w ∧ BranchesEquiv l l' := by
            simpa [BranchesEquiv] using h
          simp only [resolvedCount, List.countP_cons] at ih ⊢
          rw [isResolvedBranch_congr hv, ih hl]

/-- Discriminator inference coincides for equivalent branch lists. -/
theorem findDiscriminator_congr (cfg : Config) {vs₁ vs₂ : List (Option Schema)}
    (h : BranchesEquiv vs₁ vs₂) : findDiscriminator cfg vs₁ = findDiscriminator cfg vs₂ := by
  have hq : fieldQualifies vs₁ = fieldQualifies vs₂ := by
    funext f
    unfold fieldQualifies
    rw [collectConsts_congr f h, resolvedCount_congr h]
  unfold findDiscriminator
  rw [branchesEquiv_length h, hq]

/-- The open-variant scan reads presence, `ref` and `additionalProperties`
of each branch, all invariant, and threads the index identically. -/
theorem additionalPropsIssues_congr (path : String) {vs₁ vs₂ : List (Option Schema)}
    (h : BranchesEquiv vs₁ vs₂) (i : Nat) :
    additionalPropsIssues path vs₁ i = additionalPropsIssues path vs₂ i := by
  induction vs₁ generalizing vs₂ i with
  | nil => cases vs₂ with
      | nil => rfl
      | cons w l => simp [BranchesEquiv] at h
  | cons v l ih =>
      cases vs₂ with
      | nil => simp [BranchesEquiv] at h
      | cons w l' =>
          obtain ⟨hv, hl⟩ : SchemaOptEquiv v w ∧ BranchesEquiv l l' := by
            simpa [BranchesEquiv] using h
          unfold additionalPropsIssues
          rw [ih hl]
          congr 1
          cases v with
          | none =>
              cases w with
              | none => rfl
              | some s₂ => simp [SchemaOptEquiv] at hv
          | some s₁ =>
              cases w with
              | none => simp [SchemaOptEquiv] at hv
              | some s₂ =>
                  simp only [SchemaOptEquiv] at hv
                  obtain ⟨-, -, -, hap, -, -, hrf, -⟩ := SchemaEquiv.out hv
                  simp [hrf, hap]

/-- Moving a block over another inside an append is a permutation. -/
theorem perm_append_swap (x a b : List Issue) : (x ++ (a ++ b)).Perm (a ++ (x ++ b)) := by
  rw [← List.append_assoc, ← List.append_assoc]
  exact List.perm_append_comm.append_right b

/-- Flat-mapping a function over two presentations of one map yields
permuted outputs, provided matched entries (equal keys, equivalent values)
produce permuted blocks. -/
theorem schemaMapEquiv_flatMap_perm {l₁ l₂ : List (String × Option Schema)}
    {f : String × Option Schema → List Issue} (h : SchemaMapEquiv l₁ l₂)
    (hf : ∀ e₁ ∈ l₁, ∀ e₂ ∈ l₂, e₁.1 = e₂.1 → SchemaOptEquiv e₁.2 e₂.2 →
      (f e₁).Perm (f e₂)) :
    (l₁.flatMap f).Perm (l₂.flatMap f) := by
  induction l₁ generalizing l₂ with
  | nil =>
      rw [SchemaMapEquiv] at h
      have h2 : l₂ = [] := by
        have := h.2.2.1.symm.eq_nil
        simpa using this
      subst h2
      exact List.Perm.refl _
  | cons e l₁' ih =>
      rw [SchemaMapEquiv] at h
      obtain ⟨hn1, hn2, hperm, hrel⟩ := h
      simp only [List.map_cons] at hn1 hperm
      have hkmem : e.1 ∈ l₂.map Prod.fst :=
        hperm.mem_iff.mp (List.Mem.head _)
      obtain ⟨e₂, he₂, hke₂⟩ := List.mem_map.mp hkmem
      obtain ⟨A, B, hsplit⟩ := List.append_of_mem he₂
      subst hsplit
      simp only [List.map_append, List.map_cons] at hn2 hperm
      have hmem₂ : e₂ ∈ A ++ e₂ :: B := List.mem_append.mpr (Or.inr (List.Mem.head _))
      have hmemAB : ∀ e₂' ∈ A ++ B, e₂' ∈ A ++ e₂ :: B := by
        intro e₂' h₂'
        rcases List.mem_append.mp h₂' with hA | hB
        · exact List.mem_append.mpr (Or.inl hA)
        · exact List.mem_append.mpr (Or.inr (List.Mem.tail _ hB))
      have hsub : SchemaMapEquiv l₁' (A ++ B) := by
        rw [SchemaMapEquiv]
        refine ⟨hn1.of_cons, ?_, ?_, ?_⟩
        · have hsb : List.Sublist ((A ++ B).map Prod.fst)
              (A.map Prod.fst ++ e₂.1 :: B.map Prod.fst) := by
            simp only [List.map_append]
            exact List.Sublist.append_left (List.sublist_cons_self _ _) _
          exact hsb.nodup hn2
        · have h1 : (e.1 :: l₁'.map Prod.fst).Perm
              (e₂.1 :: (A.map Prod.fst ++ B.map Prod.fst)) :=
            hperm.trans List.perm_middle
          rw [hke₂] at h1
          have h2 := h1.cons_inv
          simpa [List.map_append] using h2
        · intro e₁' h₁' e₂' h₂' hk'
          exact hrel e₁' (List.Mem.tail _ h₁') e₂' (hmemAB e₂' h₂') hk'
      have hhead : (f e).Perm (f e₂) :=
        hf e (List.Mem.head _) e₂ hmem₂ hke₂.symm
          (hrel e (List.Mem.head _) e₂ hmem₂ hke₂.symm)
      have htail : (l₁'.flatMap f).Perm ((A ++ B).flatMap f) := by
        apply ih hsub
        intro e₁' h₁' e₂' h₂' hk' hv'
        exact hf e₁' (List.Mem.tail _ h₁') e₂' (hmemAB e₂' h₂') hk' hv'
      have hstep : ((e :: l₁').flatMap f).Perm (f e₂ ++ (A.flatMap f ++ B.flatMap f)) := by
        rw [List.flatMap_cons, ← List.flatMap_append]
        exact hhead.append htail
      refine hstep.trans ?_
      have hswap := perm_append_swap (f e₂) (A.flatMap f) (B.flatMap f)
      refine hswap.trans ?_
      have : (A ++ e₂ :: B).flatMap f = A.flatMap f ++ (f e₂ ++ B.flatMap f) := by
        rw [List.flatMap_append, List.flatMap_cons]
      rw [this]

/-- Option equivalence preserves presence. -/
theorem schemaOptEquiv_isSome {v₁ v₂ : Option Schema} (h : SchemaOptEquiv v₁ v₂) :
    v₁.isSome = v₂.isSome := by
  cases v₁ with
  | none =>
      cases v₂ with
      | none => rfl
      | some s₂ => simp [SchemaOptEquiv] at h
  | some s₁ =>
      cases v₂ with
      | none => simp [SchemaOptEquiv] at h
      | some s₂ => rfl

/-- Two presentations of one map have equally many entries. -/
theorem schemaMapEquiv_length {l₁ l₂ : List (String × Option Schema)}
    (h : SchemaMapEquiv l₁ l₂) : l₁.length = l₂.length := by
  rw [SchemaMapEquiv] at h
  have := h.2.2.1.length_eq
  simpa using this

/-- The scale-profile checks read only lengths, presence and scalar fields,
so they coincide on equivalent presentations. -/
theorem lintScaleProfile_congr {a b : Schema} (h : SchemaEquiv a b) (path : String) :
    lintScaleProfile a path = lintScaleProfile b path := by
  obtain ⟨ht, htl, -, hap, hc, he, hrf, hbl, hit, -, hany, hone, hall, hps, -, -⟩ :=
    SchemaEquiv.out h
  unfold lintScaleProfile
  rw [Schema.HasType, Schema.HasMixedType, Schema.IsRef, Schema.HasType,
    Schema.HasMixedType, Schema.IsRef, ht, htl, hap, hc, he, hrf, hbl,
    branchesEquiv_length hany, branchesEquiv_length hone, branchesEquiv_length hall,
    schemaMapEquiv_length hps, schemaOptEquiv_isSome hit]

/-- The naming-convention check reads only property names, so the two
presentations emit the same issues up to order. -/
theorem lintProperties_perm {cfg : Config} {a b : Schema} (h : SchemaMapEquiv a.properties b.properties)
    (path : String) : (lintProperties cfg a path).Perm (lintProperties cfg b path) := by
  unfold lintProperties
  apply schemaMapEquiv_flatMap_perm h
  intro e₁ _ e₂ _ hk _
  have : e₁.1 = e₂.1 := hk
  simp only [this]
  exact List.Perm.refl _

/-- The verification scan reads branch presence, `ref`, the field lookup and
its constant — all invariant — and threads index and seen set identically,
so the two presentations emit identical issues. -/
theorem verifyDiscriminatorAux_congr (field path : String)
    {vs₁ vs₂ : List (Option Schema)} (h : BranchesEquiv vs₁ vs₂) :
    ∀ (i : Nat) (seen : List String),
      verifyDiscriminatorAux field path vs₁ i seen =
        verifyDiscriminatorAux field path vs₂ i seen := by
  induction vs₁ generalizing vs₂ with
  | nil =>
      cases vs₂ with
      | nil => intro i seen; rfl
      | cons w l => simp [BranchesEquiv] at h
  | cons v l ih =>
      cases vs₂ with
      | nil => simp [BranchesEquiv] at h
      | cons w l' =>
          obtain ⟨hv, hl⟩ : SchemaOptEquiv v w ∧ BranchesEquiv l l' := by
            simpa [BranchesEquiv] using h
          intro i seen
          cases v with
          | none =>
              cases w with
              | none =>
                  simp only [verifyDiscriminatorAux]
                  exact ih hl (i + 1) seen
              | some s₂ => simp [SchemaOptEquiv] at hv
          | some s₁ =>
              cases w with
              | none => simp [SchemaOptEquiv] at hv
              | some s₂ =>
                  simp only [SchemaOptEquiv] at hv
                  obtain ⟨-, -, -, -, -, -, hrf, -, -, -, -, -, -, hps, -⟩ :=
                    SchemaEquiv.out hv
                  simp only [verifyDiscriminatorAux, hrf]
                  by_cases href : (s₂.ref != "") = true
                  · rw [if_pos href, if_pos href]
                    exact ih hl (i + 1) seen
                  · rw [if_neg href, if_neg href]
                    rcases schemaMapEquiv_lookup hps field with ⟨h1, h2⟩ |
                      ⟨w₁, w₂, h1, h2, hw⟩
                    · rw [h1, h2, ih hl (i + 1) seen]
                    · rw [h1, h2]
                      cases w₁ with
                      | none =>
                          cases w₂ with
                          | none => simp only [ih hl]
                          | some p₂ => simp [SchemaOptEquiv] at hw
                      | some p₁ =>
                          cases w₂ with
                          | none => simp [SchemaOptEquiv] at hw
                          | some p₂ =>
                              simp only [SchemaOptEquiv] at hw
                              obtain ⟨-, -, -, -, hcv, -⟩ := SchemaEquiv.out hw
                              simp only [hcv, ih hl]

/-- Whole-pass congruence for the verification scan. -/
theorem verifyDiscriminator_congr {vs₁ vs₂ : List (Option Schema)}
    (h : BranchesEquiv vs₁ vs₂) :
    verifyDiscriminator vs₁ = verifyDiscriminator vs₂ := by
  funext field path
  unfold verifyDiscriminator
  exact verifyDiscriminatorAux_congr field path h 0 []

/-- Main congruence: linting two presentations of the same decoded document
fragment yields the same issues up to order, proven by strong induction on
the fragment size across the four traversal functions. -/
theorem lint_perm_all : ∀ n : Nat,
    (∀ (cfg : Config) (v₁ v₂ : Option Schema) (path : String) (d : Nat),
      sizeOf v₁ ≤ n → SchemaOptEquiv v₁ v₂ →
      (lintSchema cfg v₁ path d).Perm (lintSchema cfg v₂ path d)) ∧
    (∀ (cfg : Config) (l₁ l₂ : List (String × Option Schema)) (path : String) (d : Nat),
      sizeOf l₁ ≤ n → SchemaMapEquiv l₁ l₂ →
      (lintPropsRec cfg l₁ path d).Perm (lintPropsRec cfg l₂ path d)) ∧
    (∀ (cfg : Config) (vs₁ vs₂ : List (Option Schema)) (path : String) (j d : Nat),
      sizeOf vs₁ ≤ n → BranchesEquiv vs₁ vs₂ →
      (lintVariantsRec cfg vs₁ path j d).Perm (lintVariantsRec cfg vs₂ path j d)) ∧
    (∀ (cfg : Config) (vs₁ vs₂ : List (Option Schema)) (path : String) (d : Nat) (k : String),
      sizeOf vs₁ ≤ n → BranchesEquiv vs₁ vs₂ →
      (lintUnion cfg vs₁ path d k).Perm (lintUnion cfg vs₂ path d k)) := by
  intro n
  induction n using Nat.strong_induction_on with
  | _ n IH =>
  have hschema : ∀ (cfg : Config) (v₁ v₂ : Option Schema) (path : String) (d : Nat),
      sizeOf v₁ ≤ n → SchemaOptEquiv v₁ v₂ →
      (lintSchema cfg v₁ path d).Perm (lintSchema cfg v₂ path d) := by
    intro cfg v₁ v₂ path d hsz hv
    cases v₁ with
    | none =>
        cases v₂ with
        | none => exact List.Perm.refl _
        | some s₂ => simp [SchemaOptEquiv] at hv
    | some s₁ =>
        cases v₂ with
        | none => simp [SchemaOptEquiv] at hv
        | some s₂ =>
            simp only [SchemaOptEquiv] at hv
            obtain ⟨-, -, -, -, -, -, -, -, hit, haps, hany, hone, -, hps, -, -⟩ :=
              SchemaEquiv.out hv
            have hs : sizeOf s₁ + 1 ≤ n := by
              simp at hsz
              omega
            simp only [lintSchema]
            have bscale :
                (if cfg.IsScaleProfile = true then lintScaleProfile s₁ path else []).Perm
                (if cfg.IsScaleProfile = true then lintScaleProfile s₂ path else []) := by
              rw [lintScaleProfile_congr hv path]
            have bany :
                (if s₁.anyOf.length > 0 then
                  lintUnion cfg s₁.anyOf (path ++ "/anyOf") d "anyOf" else []).Perm
                (if s₂.anyOf.length > 0 then
                  lintUnion cfg s₂.anyOf (path ++ "/anyOf") d "anyOf" else []) := by
              rw [branchesEquiv_length hany]
              split
              · have hm : sizeOf s₁.anyOf < n := by
                  have := sizeOf_anyOf_lt s₁
                  omega
                exact (IH _ hm).2.2.2 cfg s₁.anyOf s₂.anyOf _ d "anyOf" (le_refl _) hany
              · exact List.Perm.refl _
            have bone :
                (if s₁.oneOf.length > 0 then
                  lintUnion cfg s₁.oneOf (path ++ "/oneOf") d "oneOf" else []).Perm
                (if s₂.oneOf.length > 0 then
                  lintUnion cfg s₂.oneOf (path ++ "/oneOf") d "oneOf" else []) := by
              rw [branchesEquiv_length hone]
              split
              · have hm : sizeOf s₁.oneOf < n := by
                  have := sizeOf_oneOf_lt s₁
                  omega
                exact (IH _ hm).2.2.2 cfg s₁.oneOf s₂.oneOf _ d "oneOf" (le_refl _) hone
              · exact List.Perm.refl _
            have bprops : (lintPropsRec cfg s₁.properties path d).Perm
                (lintPropsRec cfg s₂.properties path d) := by
              have hm : sizeOf s₁.properties < n := by
                have := sizeOf_properties_lt s₁
                omega
              exact (IH _ hm).2.1 cfg s₁.properties s₂.properties path d (le_refl _) hps
            have bitems : (lintSchema cfg s₁.items (path ++ "/items") d).Perm
                (lintSchema cfg s₂.items (path ++ "/items") d) := by
              have hm : sizeOf s₁.items < n := by
                have := sizeOf_items_lt s₁
                omega
              exact (IH _ hm).1 cfg s₁.items s₂.items _ d (le_refl _) hit
            have baps : (lintSchema cfg s₁.additionalPropertiesSchema
                (path ++ "/additionalProperties") d).Perm
                (lintSchema cfg s₂.additionalPropertiesSchema
                  (path ++ "/additionalProperties") d) := by
              have hm : sizeOf s₁.additionalPropertiesSchema < n := by
                have := sizeOf_aps_lt s₁
                omega
              exact (IH _ hm).1 cfg s₁.additionalPropertiesSchema
                s₂.additionalPropertiesSchema _ d (le_refl _) haps
            have bname :
                (if (cfg.propertyCase != CaseNone) = true then
                  lintProperties cfg s₁ path else []).Perm
                (if (cfg.propertyCase != CaseNone) = true then
                  lintProperties cfg s₂ path else []) := by
              split
              · exact lintProperties_perm hps path
              · exact List.Perm.refl _
            exact (((((bscale.append bany).append bone).append
              bprops).append bitems).append baps).append bname
  have hprops : ∀ (cfg : Config) (l₁ l₂ : List (String × Option Schema)) (path : String)
      (d : Nat), sizeOf l₁ ≤ n → SchemaMapEquiv l₁ l₂ →
      (lintPropsRec cfg l₁ path d).Perm (lintPropsRec cfg l₂ path d) := by
    intro cfg l₁ l₂ path d hsz h
    rw [lintPropsRec_eq_flatMap, lintPropsRec_eq_flatMap]
    apply schemaMapEquiv_flatMap_perm h
    intro e₁ h₁ e₂ h₂ hk hv
    have hm : sizeOf e₁.2 < n := by
      have h1 := List.sizeOf_lt_of_mem h₁
      obtain ⟨k₁, w₁⟩ := e₁
      simp at h1 ⊢
      omega
    simp only [hk]
    exact (IH _ hm).1 cfg e₁.2 e₂.2 _ d (le_refl _) hv
  have hvariants : ∀ (cfg : Config) (vs₁ vs₂ : List (Option Schema)) (path : String)
      (j d : Nat), sizeOf vs₁ ≤ n → BranchesEquiv vs₁ vs₂ →
      (lintVariantsRec cfg vs₁ path j d).Perm (lintVariantsRec cfg vs₂ path j d) := by
    intro cfg vs₁ vs₂ path j d hsz hb
    cases vs₁ with
    | nil =>
        cases vs₂ with
        | nil => exact List.Perm.refl _
        | cons w l => simp [BranchesEquiv] at hb
    | cons v l =>
        cases vs₂ with
        | nil => simp [BranchesEquiv] at hb
        | cons w l' =>
            obtain ⟨hv, hl⟩ : SchemaOptEquiv v w ∧ BranchesEquiv l l' := by
              simpa [BranchesEquiv] using hb
            have hsz' : 1 + sizeOf v + sizeOf l ≤ n := by
              simpa using hsz
            rw [lintVariantsRec.eq_def, lintVariantsRec.eq_def]
            have brec : (lintVariantsRec cfg l path (j + 1) d).Perm
                (lintVariantsRec cfg l' path (j + 1) d) := by
              have hm : sizeOf l < n := by omega
              exact (IH _ hm).2.2.1 cfg l l' path (j + 1) d (le_refl _) hl
            refine List.Perm.append ?_ brec
            cases v with
            | none =>
                cases w with
                | none => exact List.Perm.refl _
                | some s₂ => simp [SchemaOptEquiv] at hv
            | some s₁ =>
                cases w with
                | none => simp [SchemaOptEquiv] at hv
                | some s₂ =>
                    simp only [SchemaOptEquiv] at hv
                    obtain ⟨-, -, -, -, -, -, hrf, -⟩ := SchemaEquiv.out hv
                    simp only [hrf]
                    split
                    · have hm : sizeOf (some s₁) < n := by
                        simp at hsz' ⊢
                        omega
                      exact (IH _ hm).1 cfg (some s₁) (some s₂) _ (d + 1) (le_refl _)
                        (by simpa [SchemaOptEquiv] using hv)
                    · exact List.Perm.refl _
  have hunion : ∀ (cfg : Config) (vs₁ vs₂ : List (Option Schema)) (path : String)
      (d : Nat) (k : String), sizeOf vs₁ ≤ n → BranchesEquiv vs₁ vs₂ →
      (lintUnion cfg vs₁ path d k).Perm (lintUnion cfg vs₂ path d k) := by
    intro cfg vs₁ vs₂ path d k hsz hb
    simp only [lintUnion]
    rw [isNullablePattern_congr hb, allRefs_congr hb, branchesEquiv_length hb,
      findDiscriminator_congr cfg hb, isReferencePattern_congr hb,
      additionalPropsIssues_congr path hb 0, verifyDiscriminator_congr hb]
    split
    · exact List.Perm.refl _
    · split
      · exact List.Perm.refl _
      · exact List.Perm.append (List.Perm.refl _) (hvariants cfg vs₁ vs₂ path 0 d hsz hb)
  exact ⟨hschema, hprops, hvariants, hunion⟩

/-- The empty map is equivalent to itself. -/
theorem schemaMapEquiv_nil : SchemaMapEquiv [] [] := by
  rw [SchemaMapEquiv]
  refine ⟨List.nodup_nil, List.nodup_nil, List.Perm.refl _, ?_⟩
  intro e₁ h₁
  simp at h₁

/-- A bare typed schema is equivalent to itself. -/
theorem schemaEquiv_schemaOfType (t : String) : SchemaEquiv (schemaOfType t) (schemaOfType t) := by
  simp [schemaOfType, SchemaEquiv, SchemaOptEquiv, BranchesEquiv, schemaMapEquiv_nil]

/-- The bad-name definition is equivalent to itself. -/
theorem schemaEquiv_badNameDef : SchemaEquiv badNameDef badNameDef := by
  simp only [badNameDef, SchemaEquiv, SchemaOptEquiv, BranchesEquiv, schemaMapEquiv_nil,
    and_true, true_and]
  rw [SchemaMapEquiv]
  refine ⟨by simp, by simp, List.Perm.refl _, ?_⟩
  intro e₁ h₁ e₂ h₂ hk
  simp only [List.mem_singleton] at h₁ h₂
  subst h₁
  subst h₂
  simp only [SchemaOptEquiv]
  exact schemaEquiv_schemaOfType ""

/-- The two $defs map orders of the counterexample document are equivalent schemas. -/
theorem schemaEquiv_c1Docs : SchemaEquiv c1DocA c1DocB := by
  simp only [c1DocA, c1DocB, SchemaEquiv, SchemaOptEquiv, BranchesEquiv, schemaMapEquiv_nil,
    and_true, true_and]
  rw [SchemaMapEquiv]
  refine ⟨by simp, by simp, ?_, ?_⟩
  · simp only [List.map_cons, List.map_nil]
    exact List.Perm.swap _ _ _
  · intro e₁ h₁ e₂ h₂ hk
    simp only [List.mem_cons, List.mem_singleton, List.not_mem_nil, or_false] at h₁ h₂
    rcases h₁ with rfl | rfl <;> rcases h₂ with rfl | rfl <;>
      simp_all [SchemaOptEquiv, schemaEquiv_badNameDef]

/-- Claim C1 (amended): two presentations of the same decoded document —
equal except for the iteration order that Go's `range` gives each
`$defs`/`definitions`/`properties` map, at every nesting level — produce
lint results whose issue sequences are permutations of each other: the same
issues, possibly in a different order.  (They need not be equal; see the
counterexample.) -/
theorem c1_lint_result_perm :
    ∀ (cfg : Config) (a b : Schema), SchemaEquiv a b →
      ((lintDoc cfg a).issues).Perm ((lintDoc cfg b).issues) := by
  intro cfg a b h
  obtain ⟨-, -, -, -, -, -, -, -, -, -, -, -, -, -, hd, hdd⟩ := SchemaEquiv.out h
  simp only [lintDoc, lintNamedDefs]
  have hroot : (lintSchema cfg (some a) "$" 0).Perm (lintSchema cfg (some b) "$" 0) :=
    (lint_perm_all (sizeOf (some a))).1 cfg (some a) (some b) "$" 0 (le_refl _)
      (by simpa only [SchemaOptEquiv] using h)
  have hdefs : (a.defs.flatMap fun e => lintSchema cfg e.2 ("$/$defs/" ++ e.1) 0).Perm
      (b.defs.flatMap fun e => lintSchema cfg e.2 ("$/$defs/" ++ e.1) 0) := by
    refine schemaMapEquiv_flatMap_perm hd ?_
    intro e₁ h₁ e₂ h₂ hk hv
    rw [hk]
    exact (lint_perm_all (sizeOf e₁.2)).1 cfg e₁.2 e₂.2 _ 0 (le_refl _) hv
  have hdefns : (a.definitions.flatMap fun e =>
        lintSchema cfg e.2 ("$/definitions/" ++ e.1) 0).Perm
      (b.definitions.flatMap fun e => lintSchema cfg e.2 ("$/definitions/" ++ e.1) 0) := by
    refine schemaMapEquiv_flatMap_perm hdd ?_
    intro e₁ h₁ e₂ h₂ hk hv
    rw [hk]
    exact (lint_perm_all (sizeOf e₁.2)).1 cfg e₁.2 e₂.2 _ 0 (le_refl _) hv
  exact (hroot.append hdefs).append hdefns

/-- Claim C1 counterexample: a document with two named definitions, each of
which produces one issue.  Both presentations decode the same input bytes —
they are equivalent up to map iteration order — yet the two lint runs return
different Results: the same two issues in opposite orders. -/
theorem c1_counterexample :
    SchemaEquiv c1DocA c1DocB ∧
      lintDoc DefaultConfig c1DocA ≠ lintDoc DefaultConfig c1DocB := by
  constructor
  · exact schemaEquiv_c1Docs
  · have hbad : isCamelCase "BadName" = false := by rfl
    intro heq
    have hiss := congrArg Result.issues heq
    simp [lintDoc, lintNamedDefs, lintSchema, lintUnion, lintPropsRec, lintVariantsRec,
      lintScaleProfile, lintProperties, c1DocA, c1DocB, badNameDef, schemaOfType,
      DefaultConfig, Config.IsScaleProfile, Schema.anyOf, Schema.oneOf, Schema.allOf,
      Schema.properties, Schema.items, Schema.additionalProperties,
      Schema.additionalPropertiesSchema, Schema.constVal, Schema.enum, Schema.type,
      Schema.typeList, Schema.ref, Schema.isBooleanSchema, Schema.defs, Schema.definitions,
      Schema.HasType, Schema.HasMixedType, Schema.IsRef, isNullablePattern, allRefs,
      isReferencePattern, findDiscriminator, fieldQualifies, collectConsts, branchConst,
      resolvedCount, isResolvedBranch, additionalPropsIssues, ProfileScale, ProfileDefault,
      CaseCamel, CaseNone, hbad] at hiss

/-- Claim C1 witness: the two presentations above do produce the same issues
up to order. -/
theorem c1_witness :
    ((lintDoc DefaultConfig c1DocA).issues).Perm ((lintDoc DefaultConfig c1DocB).issues) :=
  c1_lint_result_perm DefaultConfig c1DocA c1DocB schemaEquiv_c1Docs
